import Mathlib

/-!
Shallow embedding of the token sampler / logits post-processor of
`src/src/openai/logits_processor.rs` (candle-vllm).

Modelling conventions:
* `f32`/`f64` arithmetic is idealised as exact arithmetic over a
  `LinearOrderedField` (instantiated with `ℚ` for executable witnesses and
  with `ℝ` where the softmax/`exp` is involved).
* A Rust `panic!` (an `unwrap()` of an `Err`, or an out-of-range slice or
  index) and a propagated `Err` are both modelled as `Option.none`;
  `Option.some` is a normally returned value.
* The external `rand::distributions::WeightedIndex` is modelled after its
  documented behaviour: construction fails when some weight is negative or
  the total weight is not positive; sampling draws a uniform value
  `x ∈ [0, total)` and returns the first index whose strict prefix sum of
  weights exceeds `x` (capped at the last index).  The uniform draw is
  written `u * total` with `u ∈ [0, 1)` coming from the seeded generator.
* The seeded `StdRng` stream is modelled abstractly as a concrete
  deterministic function `uniformQ seed counter ∈ [0, 1)`: one value is
  consumed per `sample_multinomial` call.  Only determinism of the stream
  and the order in which batch rows consume it matter for the claims.
* The tensor sort used by `sample_topp` / `sample_topk` (a descending sort
  returning sorted values and their original indices) is an external kernel;
  it is modelled by a stable descending insertion sort of the indices.
-/

namespace CandleVllm

variable {α : Type} [LinearOrderedField α]

/-- Models `rand::distributions::WeightedIndex::sample` index selection:
the first index whose strict prefix sum of weights exceeds `x`, capped so
that the result is always `< length` (rand searches the cumulative-weight
list which excludes the final total). -/
def multIdx : List α → α → ℕ
  | [], _ => 0
  | [_], _ => 0
  | w :: w' :: ws, x => if x < w then 0 else multIdx (w' :: ws) (x - w) + 1

/-- Models `LogitsProcessor::sample_multinomial` (minus the rng state):
`WeightedIndex::new(prs)` fails when some weight is negative or the total
is not positive (`InvalidWeight` / `AllWeightsZero` / `NoItem`), which the
callers `unwrap`; otherwise one uniform value `u ∈ [0,1)` is consumed and
the drawn token is `multIdx prs (u * total)`. -/
def sampleMultinomial (prs : List α) (u : α) : Option ℕ :=
  if (∃ w ∈ prs, w < 0) ∨ prs.sum ≤ 0 then none
  else some (multIdx prs (u * prs.sum))

/-- The ordering used by the modelled descending tensor sort on indices of
`l`: larger value first, ties broken by lower index (stable). -/
def descRel (l : List α) (i j : ℕ) : Prop :=
  l.getD j 0 < l.getD i 0 ∨ (l.getD i 0 = l.getD j 0 ∧ i ≤ j)

instance (l : List α) : DecidableRel (descRel l) := fun i j => by
  unfold descRel; infer_instance

instance (l : List α) : IsTotal ℕ (descRel l) where
  total i j := by
    rcases lt_trichotomy (l.getD i 0) (l.getD j 0) with h | h | h
    · exact Or.inr (Or.inl h)
    · rcases Nat.le_total i j with hij | hij
      · exact Or.inl (Or.inr ⟨h, hij⟩)
      · exact Or.inr (Or.inr ⟨h.symm, hij⟩)
    · exact Or.inl (Or.inl h)

instance (l : List α) : IsTrans ℕ (descRel l) where
  trans i j k hij hjk := by
    rcases hij with h1 | ⟨e1, le1⟩
    · rcases hjk with h2 | ⟨e2, _⟩
      · exact Or.inl (h2.trans h1)
      · exact Or.inl (e2 ▸ h1)
    · rcases hjk with h2 | ⟨e2, le2⟩
      · exact Or.inl (e1 ▸ h2)
      · exact Or.inr ⟨e1.trans e2, le1.trans le2⟩

/-- Models the descending argsort (`arg_sort(false)` / `sort(false)`):
the permutation of `[0, l.length)` listing indices of `l` in descending
value order, stable on ties. -/
def argsortDesc (l : List α) : List ℕ :=
  List.insertionSort (descRel l) (List.range l.length)

/-- Models one iteration of the top-p clamping loop in `sample_topp` /
`sample_topk_topp`: `if cumsum >= top_p { prs[i] = 0.0 } else { cumsum += prs[i] }`. -/
def clampStep (p : α) (st : List α × α) (i : ℕ) : List α × α :=
  if p ≤ st.2 then (st.1.set i 0, st.2) else (st.1, st.2 + st.1.getD i 0)

/-- Models the whole top-p clamping loop of `sample_topp` (with `indices`
the descending argsort) and of `sample_topk_topp` (with `indices` being
`0..prs.len()`): returns the clamped weights and the final `cumsum`. -/
def clampTopP (p : α) (indices : List ℕ) (prs : List α) : List α × α :=
  indices.foldl (clampStep p) (prs, 0)

/-- Models one row of `LogitsProcessor::sample_topp`: clamp with the
descending argsort order, then `sample_multinomial(&prs).unwrap()`. -/
def sampleToppRow (row : List α) (p u : α) : Option ℕ :=
  sampleMultinomial (clampTopP p (argsortDesc row) row).1 u

/-- Models the Rust slice `&xs[0..k]`: panics (`none`) when `k > xs.length`. -/
def sliceTo (xs : List β) (k : ℕ) : Option (List β) :=
  if k ≤ xs.length then some (xs.take k) else none

/-- Models one row of `LogitsProcessor::sample_topk` (the CUDA path):
full descending sort, slice off the first `k` indices and values, draw a
multinomial index among them, map back through the index table. -/
def sampleTopkRow (row : List α) (k : ℕ) (u : α) : Option ℕ :=
  match sliceTo (argsortDesc row) k,
        sliceTo ((argsortDesc row).map (fun i => row.getD i 0)) k with
  | some indices, some prs => (sampleMultinomial prs u).bind (fun m => indices[m]?)
  | _, _ => none

/-- Models one row of `LogitsProcessor::sample_topk_topp` (the CUDA path):
top-k slice, then if `top_p <= 0.0 || top_p >= sum_p` sample among all `k`
retained weights, otherwise run the clamping loop over positions
`0..prs.len()` and sample from the clamped weights. -/
def sampleTopkToppRow (row : List α) (k : ℕ) (p u : α) : Option ℕ :=
  match sliceTo (argsortDesc row) k,
        sliceTo ((argsortDesc row).map (fun i => row.getD i 0)) k with
  | some indices, some prs =>
    (if p ≤ 0 ∨ prs.sum ≤ p then sampleMultinomial prs u
     else sampleMultinomial (clampTopP p (List.range prs.length) prs).1 u).bind
      (fun m => indices[m]?)
  | _, _ => none

/-- The top-k weight slice (the `prs` vector of `sample_topk`), for stating
theorems. -/
def topkWeights (row : List α) (k : ℕ) : List α :=
  ((argsortDesc row).map (fun i => row.getD i 0)).take k

/-- The weight vector `sample_topk_topp` actually samples from, for stating
theorems. -/
def topkToppWeights (row : List α) (k : ℕ) (p : α) : List α :=
  let prs := topkWeights row k
  if p ≤ 0 ∨ prs.sum ≤ p then prs else (clampTopP p (List.range prs.length) prs).1

/-- Models `Tensor::argmax` on one row (index of the maximum, first
occurrence on ties), used by `sample_argmax`. -/
def argmaxGo (best : ℕ) (bestv : α) (n : ℕ) : List α → ℕ
  | [] => best
  | v :: vs => if bestv < v then argmaxGo n v (n + 1) vs else argmaxGo best bestv (n + 1) vs

/-- Index of the row maximum (first occurrence), `sample_argmax` per row. -/
def argmaxIdx : List α → ℕ
  | [] => 0
  | v :: vs => argmaxGo 0 v 1 vs

/-- The per-entry repetition-penalty update of `apply_batch_repeat_penalty`:
`if *logit >= 0 { *logit /= penalty } else { *logit *= penalty }`. -/
def penalizeVal (pen v : α) : α :=
  if 0 ≤ v then v / pen else v * pen

/-- Models the body of `if let Some(logit) = logits.get_mut(*token_id as usize)`
in `apply_batch_repeat_penalty`: update the logit at `t` by `penalizeVal`;
out-of-range token ids are skipped. -/
def penalizeAt (pen : α) (row : List α) (t : ℕ) : List α :=
  if t < row.length then row.set t (penalizeVal pen (row.getD t 0)) else row

/-- Models the `for token_id in &context[b]` loop of
`apply_batch_repeat_penalty` with its `already_seen` set: each distinct
token id is penalised at most once. -/
def penalizeTokens (pen : α) : List ℕ → List ℕ → List α → List α
  | [], _, row => row
  | t :: ts, seen, row =>
    if t ∈ seen then penalizeTokens pen ts seen row
    else penalizeTokens pen ts (t :: seen) (penalizeAt pen row t)

/-- Models one batch row of `apply_batch_repeat_penalty`: the loop runs only
when `penalties[b] != 1.0 && penalties[b] != 0. && context[b].len() > 1`. -/
def penalizeRow (pen : α) (ctx : List ℕ) (row : List α) : List α :=
  if pen ≠ 1 ∧ pen ≠ 0 ∧ 1 < ctx.length then penalizeTokens pen ctx [] row
  else row

/-- Models `LogitsProcessor::apply_batch_repeat_penalty`: each row is
transformed independently and the results assembled into a new tensor. -/
def applyBatchRepeatPenalty (logits : List (List α)) (penalties : List α)
    (context : List (List ℕ)) : List (List α) :=
  (List.range logits.length).map
    (fun b => penalizeRow (penalties.getD b 0) (context.getD b []) (logits.getD b []))

/-- Models `candle_nn::ops::softmax_last_dim` on one row, with the
exponential passed as a parameter `E` (instantiated with `Real.exp` in the
theorems that speak about softmax probabilities). -/
def softmax (E : α → α) (l : List α) : List α :=
  l.map (fun v => E v / (l.map E).sum)

/-- The `Sampling` enum of `logits_processor.rs`. -/
inductive Sampling (α : Type) where
  | argMax : Sampling α
  | all (temperature : α) : Sampling α
  | topK (k : ℕ) (temperature : α) : Sampling α
  | topP (p : α) (temperature : α) : Sampling α
  | topKThenTopP (k : ℕ) (p : α) (temperature : α) : Sampling α
  deriving DecidableEq

/-- The `LogitsProcessor` struct: the rng is reduced to its seed (the
`StdRng` state is a deterministic function of the seed and the number of
draws made so far). -/
structure LogitsProcessor (α : Type) where
  seed : ℕ
  sampling : Sampling α

/-- `LogitsProcessor::from_sampling`. -/
def LogitsProcessor.fromSampling (seed : ℕ) (s : Sampling α) : LogitsProcessor α :=
  ⟨seed, s⟩

/-- `LogitsProcessor::new`: a `None` temperature, or one strictly below
`1e-7`, selects `ArgMax`; otherwise `All` or `TopP` according to `top_p`. -/
def LogitsProcessor.new (seed : ℕ) (temperature top_p : Option α) :
    LogitsProcessor α :=
  let temperature := temperature.bind
    (fun v => if v < 1 / 10 ^ 7 then none else some v)
  let sampling :=
    match temperature with
    | none => Sampling.argMax
    | some t =>
      match top_p with
      | none => Sampling.all t
      | some p => Sampling.topP p t
  LogitsProcessor.fromSampling seed sampling

/-- Concrete model of the `StdRng` uniform stream: the value consumed by the
`n`-th `sample_multinomial` call of a processor seeded with `seed`, always
in `[0, 1)`.  Only determinism in `(seed, n)` and the order in which batch
rows consume the stream matter for the claims. -/
def uniformQ (seed n : ℕ) : ℚ :=
  (((seed + 3 * n + 3) % 10 : ℕ) : ℚ) / 10

/-- The temperature-then-softmax step of `LogitsProcessor::sample`:
`prs = softmax_last_dim(&(logits / temperature))`, per row. -/
def probsOf (E : α → α) (T : α) (logits : List (List α)) : List (List α) :=
  logits.map (fun row => softmax E (row.map (fun v => v / T)))

/-- The sequential sampling loop `(0..batch).map(|b| sample_multinomial(...))`
used by the `All` variant and by the top-p passthrough: row `b` consumes the
`(c0 + b)`-th value of the rng stream (ascending row order). -/
def sampleRowsSeq (prs : List (List ℚ)) (seed c0 : ℕ) : List (Option ℕ) :=
  (List.range prs.length).map
    (fun b => sampleMultinomial (prs.getD b []) (uniformQ seed (c0 + b)))

/-- The parallel sampling loop `(0..batch).into_par_iter().map(...)` used by
`sample_topp` / `sample_topk` / `sample_topk_topp`: each row makes exactly
one draw from the single mutex-guarded rng, but the order `ord` in which the
rows acquire the lock is chosen by the rayon scheduler, so it is an
arbitrary permutation of the rows; row `b` consumes the `(c0 + position of
b in ord)`-th value of the stream.  The collected output keeps row order. -/
def parallelRows (rowSample : List ℚ → ℚ → Option ℕ) (prs : List (List ℚ))
    (seed c0 : ℕ) (out : List (Option ℕ)) : Prop :=
  ∃ ord : List ℕ, ord.Perm (List.range prs.length) ∧
    out = (List.range prs.length).map
      (fun b => rowSample (prs.getD b []) (uniformQ seed (c0 + ord.indexOf b)))

/-- Batch-level semantics of `LogitsProcessor::sample`, as a relation
between the logits and the returned token vector (the parallel paths are
genuinely relational: the rng draw order is scheduler-chosen).  `c0` is the
number of rng draws already consumed by earlier `sample` calls. -/
def SampleRel (E : ℚ → ℚ) (seed c0 : ℕ) :
    Sampling ℚ → List (List ℚ) → List (Option ℕ) → Prop
  | .argMax, logits, out => out = logits.map (fun row => some (argmaxIdx row))
  | .all T, logits, out => out = sampleRowsSeq (probsOf E T logits) seed c0
  | .topP p T, logits, out =>
    if p ≤ 0 ∨ 1 ≤ p then out = sampleRowsSeq (probsOf E T logits) seed c0
    else parallelRows (fun row u => sampleToppRow row p u) (probsOf E T logits)
      seed c0 out
  | .topK k T, logits, out =>
    parallelRows (fun row u => sampleTopkRow row k u) (probsOf E T logits)
      seed c0 out
  | .topKThenTopP k p T, logits, out =>
    parallelRows (fun row u => sampleTopkToppRow row k p u) (probsOf E T logits)
      seed c0 out

/-- The sequential dispatch paths of `sample`: those where the rows draw
from the shared rng in ascending row order (`ArgMax` draws nothing). -/
def SeqPath : Sampling ℚ → Prop
  | .argMax => True
  | .all _ => True
  | .topP p _ => p ≤ 0 ∨ 1 ≤ p
  | .topK _ _ => False
  | .topKThenTopP _ _ _ => False

/-- Analysis helper (not part of the source): the number of tokens the
clamping loop keeps when it visits weights `vals` in order starting from
cumulative sum `c` — the loop keeps a token iff the cumulative sum so far is
still `< p`. -/
def keptCount (p : α) : List α → α → ℕ
  | [], _ => 0
  | v :: vs, c => if p ≤ c then 0 else keptCount p vs (c + v) + 1


/-! ### Generic list helpers -/

theorem getD_set_self {l : List α} {i : ℕ} {a : α} (h : i < l.length) :
    (l.set i a).getD i 0 = a := by
  rw [List.getD_eq_getElem?_getD, List.getElem?_set_self h]
  rfl

theorem getD_set_ne {l : List α} {i j : ℕ} {a : α} (h : i ≠ j) :
    (l.set i a).getD j 0 = l.getD j 0 := by
  rw [List.getD_eq_getElem?_getD, List.getElem?_set_ne h,
    ← List.getD_eq_getElem?_getD]

theorem map_getD_range (l : List α) :
    (List.range l.length).map (fun i => l.getD i 0) = l := by
  apply List.ext_getElem
  · simp
  · intro n h1 h2
    simp [List.getD_eq_getElem?_getD, List.getElem?_eq_getElem h2]

theorem sum_take_mono {l : List α} (h0 : ∀ w ∈ l, 0 ≤ w) {m n : ℕ}
    (h : m ≤ n) : (l.take m).sum ≤ (l.take n).sum := by
  have : l.take n = l.take m ++ (l.drop m).take (n - m) := by
    rw [← List.take_add]
    congr 1
    omega
  rw [this, List.sum_append]
  have : 0 ≤ ((l.drop m).take (n - m)).sum := by
    apply List.sum_nonneg
    intro x hx
    exact h0 x (List.mem_of_mem_drop (List.mem_of_mem_take hx))
  linarith

/-! ### The top-p clamping loop -/

theorem clampStep_of_le {p c : α} (prs : List α) (i : ℕ) (h : p ≤ c) :
    clampStep p (prs, c) i = (prs.set i 0, c) := by
  simp [clampStep, h]

theorem clampStep_of_lt {p c : α} (prs : List α) (i : ℕ) (h : ¬p ≤ c) :
    clampStep p (prs, c) i = (prs, c + prs.getD i 0) := by
  simp [clampStep, h]

/-- Each entry of the clamped weight vector is either the original entry or
zero, whatever the visiting order. -/
theorem clampLoop_entries (p : α) :
    ∀ (indices : List ℕ) (prs : List α) (c : α) (j : ℕ),
      ((indices.foldl (clampStep p) (prs, c)).1.getD j 0 = prs.getD j 0) ∨
      (indices.foldl (clampStep p) (prs, c)).1.getD j 0 = 0 := by
  intro indices
  induction indices with
  | nil => intro prs c j; exact Or.inl rfl
  | cons i rest ih =>
    intro prs c j
    rw [List.foldl_cons]
    by_cases hc : p ≤ c
    · rw [clampStep_of_le prs i hc]
      rcases ih (prs.set i 0) c j with h | h
      · rw [h]
        by_cases hij : i = j
        · subst hij
          by_cases hlen : i < prs.length
          · exact Or.inr (getD_set_self hlen)
          · rw [List.set_eq_of_length_le (Nat.le_of_not_lt hlen)]
            exact Or.inl rfl
        · rw [getD_set_ne hij]
          exact Or.inl rfl
      · exact Or.inr h
    · rw [clampStep_of_lt prs i hc]
      exact ih prs _ j

/-- The clamping loop preserves the length of the weight vector. -/
theorem clampLoop_length (p : α) :
    ∀ (indices : List ℕ) (prs : List α) (c : α),
      (indices.foldl (clampStep p) (prs, c)).1.length = prs.length := by
  intro indices
  induction indices with
  | nil => intro prs c; rfl
  | cons i rest ih =>
    intro prs c
    rw [List.foldl_cons]
    by_cases hc : p ≤ c
    · rw [clampStep_of_le prs i hc, ih, List.length_set]
    · rw [clampStep_of_lt prs i hc, ih]

/-! ### `keptCount` facts -/

theorem keptCount_le_length (p : α) :
    ∀ (vals : List α) (c : α), keptCount p vals c ≤ vals.length := by
  intro vals
  induction vals with
  | nil => intro c; simp [keptCount]
  | cons v vs ih =>
    intro c
    unfold keptCount
    by_cases hc : p ≤ c
    · simp [hc]
    · simp only [if_neg hc, List.length_cons]
      exact Nat.succ_le_succ (ih (c + v))

theorem keptCount_eq_zero_of_le (p : α) {c : α} (hc : p ≤ c) (vals : List α) :
    keptCount p vals c = 0 := by
  cases vals with
  | nil => rfl
  | cons v vs => unfold keptCount; rw [if_pos hc]

/-- Strict prefix sums of kept tokens stay below `p`: every token the loop
keeps is added while the cumulative sum is still `< p`. -/
theorem keptCount_prefix_lt (p : α) :
    ∀ (vals : List α) (c : α) (n : ℕ), n < keptCount p vals c →
      c + (vals.take n).sum < p := by
  intro vals
  induction vals with
  | nil => intro c n h; simp [keptCount] at h
  | cons v vs ih =>
    intro c n h
    unfold keptCount at h
    by_cases hc : p ≤ c
    · rw [if_pos hc] at h; omega
    · rw [if_neg hc] at h
      cases n with
      | zero => simpa using lt_of_not_le hc
      | succ m =>
        have := ih (c + v) m (Nat.lt_of_succ_lt_succ h)
        simp only [List.take_succ_cons, List.sum_cons]
        linarith

/-- When the loop stops keeping tokens before the end of the list, the
cumulative sum of the kept prefix has reached `p`. -/
theorem keptCount_stop (p : α) :
    ∀ (vals : List α) (c : α), keptCount p vals c < vals.length →
      p ≤ c + (vals.take (keptCount p vals c)).sum := by
  intro vals
  induction vals with
  | nil => intro c h; simp at h
  | cons v vs ih =>
    intro c h
    unfold keptCount at h ⊢
    by_cases hc : p ≤ c
    · rw [if_pos hc]
      simpa using hc
    · rw [if_neg hc] at h ⊢
      have := ih (c + v) (Nat.lt_of_succ_lt_succ h)
      simp only [List.take_succ_cons, List.sum_cons]
      linarith

/-- Full characterisation of the clamping loop started at cumulative sum `c`
on pairwise-distinct in-range indices.  Writing `vals` for the weights in
visiting order and `k = keptCount p vals c`: positions outside `indices` are
untouched, the first `k` visited weights are kept, all later visited weights
are zeroed, and the final cumulative sum is `c` plus the kept weights. -/
theorem clampLoop_spec (p : α) :
    ∀ (indices : List ℕ) (prs : List α) (c : α), indices.Nodup →
      (∀ i ∈ indices, i < prs.length) →
      (∀ j, j ∉ indices →
        (indices.foldl (clampStep p) (prs, c)).1.getD j 0 = prs.getD j 0) ∧
      indices.map (fun i => (indices.foldl (clampStep p) (prs, c)).1.getD i 0)
        = (indices.map (fun i => prs.getD i 0)).take
            (keptCount p (indices.map (fun i => prs.getD i 0)) c)
          ++ List.replicate
              (indices.length
                - keptCount p (indices.map (fun i => prs.getD i 0)) c) 0 ∧
      (indices.foldl (clampStep p) (prs, c)).2
        = c + ((indices.map (fun i => prs.getD i 0)).take
            (keptCount p (indices.map (fun i => prs.getD i 0)) c)).sum := by
  intro indices
  induction indices with
  | nil =>
    intro prs c _ _
    exact ⟨fun j _ => rfl, by simp [keptCount], by simp [keptCount]⟩
  | cons i rest ih =>
    intro prs c hnd hb
    have hi : i ∉ rest := (List.nodup_cons.mp hnd).1
    have hnd' : rest.Nodup := (List.nodup_cons.mp hnd).2
    have hilen : i < prs.length := hb i (List.mem_cons_self i rest)
    by_cases hc : p ≤ c
    · -- the cumulative sum has already reached p: this and all later tokens
      -- are zeroed
      have hb' : ∀ i' ∈ rest, i' < (prs.set i 0).length := by
        intro i' hi'
        rw [List.length_set]
        exact hb i' (List.mem_cons_of_mem i hi')
      obtain ⟨h1, h2, h3⟩ := ih (prs.set i 0) c hnd' hb'
      have hvals : rest.map (fun i' => (prs.set i 0).getD i' 0)
          = rest.map (fun i' => prs.getD i' 0) := by
        apply List.map_congr_left
        intro a ha
        exact getD_set_ne (fun he => hi (he ▸ ha))
      rw [hvals] at h2 h3
      rw [List.foldl_cons, clampStep_of_le prs i hc]
      have hk0 : keptCount p ((i :: rest).map (fun i' => prs.getD i' 0)) c = 0 :=
        keptCount_eq_zero_of_le p hc _
      have hk0' : keptCount p (rest.map (fun i' => prs.getD i' 0)) c = 0 :=
        keptCount_eq_zero_of_le p hc _
      rw [hk0'] at h2 h3
      refine ⟨?_, ?_, ?_⟩
      · intro j hj
        have hij : i ≠ j := by
          intro he
          exact hj (he ▸ List.mem_cons_self i rest)
        have hjr : j ∉ rest := fun hm => hj (List.mem_cons_of_mem i hm)
        rw [h1 j hjr, getD_set_ne hij]
      · rw [hk0]
        simp only [List.map_cons, List.take_zero, List.nil_append,
          List.length_cons, Nat.sub_zero, List.replicate_succ]
        refine List.cons_eq_cons.mpr ⟨?_, ?_⟩
        · rw [h1 i hi, getD_set_self hilen]
        · simpa using h2
      · rw [h3, hk0]
        simp
    · -- this token is kept and added to the cumulative sum
      have hb' : ∀ i' ∈ rest, i' < prs.length :=
        fun i' hi' => hb i' (List.mem_cons_of_mem i hi')
      obtain ⟨h1, h2, h3⟩ := ih prs (c + prs.getD i 0) hnd' hb'
      rw [List.foldl_cons, clampStep_of_lt prs i hc]
      have hkc : keptCount p ((i :: rest).map (fun i' => prs.getD i' 0)) c
          = keptCount p (rest.map (fun i' => prs.getD i' 0))
              (c + prs.getD i 0) + 1 := by
        simp only [List.map_cons, keptCount, if_neg hc]
      refine ⟨?_, ?_, ?_⟩
      · intro j hj
        exact h1 j (fun hm => hj (List.mem_cons_of_mem i hm))
      · rw [hkc]
        simp only [List.map_cons, List.take_succ_cons, List.cons_append,
          List.length_cons, Nat.succ_sub_succ]
        refine List.cons_eq_cons.mpr ⟨?_, ?_⟩
        · exact h1 i hi
        · exact h2
      · rw [hkc]
        simp only [List.map_cons, List.take_succ_cons, List.sum_cons]
        rw [h3]
        ring

/-! ### The descending argsort -/

theorem argsortDesc_perm (l : List α) :
    (argsortDesc l).Perm (List.range l.length) :=
  List.perm_insertionSort _ _

theorem argsortDesc_nodup (l : List α) : (argsortDesc l).Nodup :=
  (argsortDesc_perm l).nodup_iff.mpr (List.nodup_range _)

theorem argsortDesc_length (l : List α) :
    (argsortDesc l).length = l.length := by
  simpa using (argsortDesc_perm l).length_eq

theorem mem_argsortDesc {l : List α} {i : ℕ} :
    i ∈ argsortDesc l ↔ i < l.length := by
  rw [(argsortDesc_perm l).mem_iff, List.mem_range]

theorem argsortDesc_sortedRel (l : List α) :
    List.Sorted (descRel l) (argsortDesc l) :=
  List.sorted_insertionSort _ _

/-- The values of `l` listed in argsort order are weakly descending. -/
theorem argsortDesc_vals_sorted (l : List α) :
    List.Sorted (fun a b => b ≤ a)
      ((argsortDesc l).map (fun i => l.getD i 0)) := by
  rw [List.Sorted, List.pairwise_map]
  refine (argsortDesc_sortedRel l).imp ?_
  intro i j h
  rcases h with h | ⟨h, _⟩
  · exact le_of_lt h
  · exact le_of_eq h.symm

/-- The values of `l` listed in argsort order are a permutation of `l`. -/
theorem argsortDesc_vals_perm (l : List α) :
    ((argsortDesc l).map (fun i => l.getD i 0)).Perm l := by
  have h := (argsortDesc_perm l).map (fun i => l.getD i 0)
  rw [map_getD_range l] at h
  exact h

/-! ### Multinomial sampling facts -/

theorem multIdx_lt :
    ∀ (prs : List α) (x : α), prs ≠ [] → multIdx prs x < prs.length
  | [], _, h => absurd rfl h
  | [_], _, _ => by simp [multIdx]
  | w :: w' :: ws, x, _ => by
    rw [multIdx]
    by_cases hx : x < w
    · simp [hx]
    · rw [if_neg hx]
      exact Nat.succ_lt_succ (multIdx_lt (w' :: ws) (x - w) (by simp))

theorem sampleMultinomial_eq_some {prs : List α} (u : α)
    (h0 : ∀ w ∈ prs, 0 ≤ w) (hs : 0 < prs.sum) :
    sampleMultinomial prs u = some (multIdx prs (u * prs.sum)) := by
  unfold sampleMultinomial
  rw [if_neg]
  push_neg
  exact ⟨h0, hs⟩

/-- Accessing one entry of `take k vals ++ replicate (len - k) 0`. -/
theorem take_append_replicate_getD (vals : List α) (k n : ℕ)
    (hk : k ≤ vals.length) (hn : n < vals.length) :
    (vals.take k ++ List.replicate (vals.length - k) (0 : α)).getD n 0
      = if n < k then vals.getD n 0 else 0 := by
  have hlt : (vals.take k).length = k := by
    rw [List.length_take]
    omega
  by_cases h : n < k
  · rw [if_pos h, List.getD_append _ _ _ _ (by omega)]
    rw [List.getD_eq_getElem _ _ (by omega), List.getD_eq_getElem _ _ hn]
    exact List.getElem_take vals
  · rw [if_neg h, List.getD_append_right _ _ _ _ (by omega)]
    rw [List.getD_eq_getElem?_getD, List.getElem?_replicate]
    by_cases h2 : n - (vals.take k).length < vals.length - k
    · rw [if_pos h2]; rfl
    · rw [if_neg h2]; rfl

/-- With non-negative weights, the loop keeps the `n`-th visited token iff
the cumulative sum of the earlier tokens is still `< p`. -/
theorem lt_keptCount_iff {vals : List α} (h0 : ∀ w ∈ vals, 0 ≤ w) {p : α}
    {n : ℕ} (hn : n < vals.length) :
    n < keptCount p vals 0 ↔ (vals.take n).sum < p := by
  constructor
  · intro h
    have := keptCount_prefix_lt p vals 0 n h
    linarith
  · intro h
    by_contra hle
    push_neg at hle
    have hkl : keptCount p vals 0 < vals.length := lt_of_le_of_lt hle hn
    have hstop := keptCount_stop p vals 0 hkl
    have hmono := sum_take_mono h0 hle
    linarith

/-- The values of `row` read off in argsort order are non-negative when the
row is. -/
theorem argsort_vals_nonneg {row : List α} (h0 : ∀ w ∈ row, 0 ≤ w) :
    ∀ w ∈ (argsortDesc row).map (fun i => row.getD i 0), 0 ≤ w := by
  intro w hw
  rcases List.mem_map.mp hw with ⟨i, hi, rfl⟩
  have hilen : i < row.length := mem_argsortDesc.mp hi
  rw [List.getD_eq_getElem _ _ hilen]
  exact h0 _ (List.getElem_mem hilen)

/-- Reading the `n`-th entry of a mapped argsort list. -/
theorem getD_map_argsort (f : ℕ → α) (idx : List ℕ) {n : ℕ}
    (hn : n < idx.length) :
    (idx.map f).getD n 0 = f (idx.getD n 0) := by
  rw [List.getD_eq_getElem _ _ (by rw [List.length_map]; exact hn),
    List.getElem_map, List.getD_eq_getElem _ _ hn]

/-- Pointwise description of `sample_topp`'s clamped weights: the token at
sorted position `n` keeps its weight iff `n` is below the kept count. -/
theorem clampTopP_argsort_getD (row : List α) (p : α) {n : ℕ}
    (hn : n < (argsortDesc row).length) :
    (clampTopP p (argsortDesc row) row).1.getD ((argsortDesc row).getD n 0) 0
      = if n < keptCount p ((argsortDesc row).map (fun i => row.getD i 0)) 0
        then ((argsortDesc row).map (fun i => row.getD i 0)).getD n 0
        else 0 := by
  obtain ⟨h1, h2, h3⟩ := clampLoop_spec p (argsortDesc row) row 0
    (argsortDesc_nodup row) (fun i hi => mem_argsortDesc.mp hi)
  have hvlen : ((argsortDesc row).map (fun i => row.getD i 0)).length
      = (argsortDesc row).length := List.length_map _ _
  have hkle := keptCount_le_length p
    ((argsortDesc row).map (fun i => row.getD i 0)) 0
  have hLHS : (clampTopP p (argsortDesc row) row).1.getD
      ((argsortDesc row).getD n 0) 0
      = ((argsortDesc row).map
          (fun i => (clampTopP p (argsortDesc row) row).1.getD i 0)).getD n 0 :=
    (getD_map_argsort
      (fun i => (clampTopP p (argsortDesc row) row).1.getD i 0)
      (argsortDesc row) hn).symm
  rw [hLHS]
  unfold clampTopP
  rw [h2]
  have hrep : (argsortDesc row).length
      = ((argsortDesc row).map (fun i => row.getD i 0)).length := hvlen.symm
  rw [hrep, take_append_replicate_getD _ _ _ (by omega) (by omega)]

/-- The length of the clamped weight vector equals the row length. -/
theorem clampTopP_argsort_length (row : List α) (p : α) :
    (clampTopP p (argsortDesc row) row).1.length = row.length := by
  unfold clampTopP
  exact clampLoop_length p (argsortDesc row) row 0

/-- The total clamped mass is the sum of the kept prefix of the descending
value sequence. -/
theorem clampTopP_argsort_sum (row : List α) (p : α) :
    (clampTopP p (argsortDesc row) row).1.sum
      = (((argsortDesc row).map (fun i => row.getD i 0)).take
          (keptCount p ((argsortDesc row).map (fun i => row.getD i 0)) 0)).sum := by
  obtain ⟨h1, h2, h3⟩ := clampLoop_spec p (argsortDesc row) row 0
    (argsortDesc_nodup row) (fun i hi => mem_argsortDesc.mp hi)
  have hres_len : (clampTopP p (argsortDesc row) row).1.length = row.length :=
    clampTopP_argsort_length row p
  have hperm : ((argsortDesc row).map
        (fun i => (clampTopP p (argsortDesc row) row).1.getD i 0)).Perm
      (clampTopP p (argsortDesc row) row).1 := by
    have h := (argsortDesc_perm row).map
      (fun i => (clampTopP p (argsortDesc row) row).1.getD i 0)
    rw [show row.length = (clampTopP p (argsortDesc row) row).1.length
        from hres_len.symm] at h
    rw [map_getD_range] at h
    exact h
  rw [← hperm.sum_eq]
  unfold clampTopP
  rw [h2, List.sum_append, List.sum_replicate, smul_zero, add_zero]

/-- **C2.**  For the TopP variant with `0 < p < 1`, `sample_topp` visits
tokens in descending-probability order accumulating a cumulative sum: every
token visited while `cumsum < p` keeps its probability — including the pivot
token whose addition first makes `cumsum ≥ p` (the `n`-th visited token is
kept exactly when the sum of the earlier visited ones is still `< p`) — and
every token at strictly larger sorted index has its probability set to zero;
the multinomial sample is then drawn from this clamped distribution. -/
theorem sample_topp_clamp_spec (row : List α) (p u : α)
    (h0 : ∀ w ∈ row, 0 ≤ w) :
    List.Sorted (fun a b => b ≤ a)
      ((argsortDesc row).map (fun i => row.getD i 0)) ∧
    (∀ n, n < (argsortDesc row).length →
      (clampTopP p (argsortDesc row) row).1.getD ((argsortDesc row).getD n 0) 0
        = if (((argsortDesc row).map (fun i => row.getD i 0)).take n).sum < p
          then row.getD ((argsortDesc row).getD n 0) 0 else 0) ∧
    sampleToppRow row p u
      = sampleMultinomial (clampTopP p (argsortDesc row) row).1 u := by
  refine ⟨argsortDesc_vals_sorted row, ?_, rfl⟩
  intro n hn
  have hvlen : ((argsortDesc row).map (fun i => row.getD i 0)).length
      = (argsortDesc row).length := List.length_map _ _
  rw [clampTopP_argsort_getD row p hn]
  rw [if_congr (lt_keptCount_iff (argsort_vals_nonneg h0) (by omega)) rfl rfl]
  by_cases hcase :
      ((((argsortDesc row).map (fun i => row.getD i 0)).take n).sum : α) < p
  · rw [if_pos hcase, if_pos hcase, getD_map_argsort _ _ hn]
  · rw [if_neg hcase, if_neg hcase]

/-- Witness for C2 at a concrete probability row. -/
theorem sample_topp_clamp_spec_witness :
    (∀ w ∈ ([1/2, 3/10, 1/5] : List ℚ), 0 ≤ w) ∧
    sampleToppRow ([1/2, 3/10, 1/5] : List ℚ) (7/10) 0
      = sampleMultinomial
          (clampTopP (7/10) (argsortDesc ([1/2, 3/10, 1/5] : List ℚ))
            ([1/2, 3/10, 1/5] : List ℚ)).1 0 :=
  ⟨by norm_num,
    (sample_topp_clamp_spec ([1/2, 3/10, 1/5] : List ℚ) (7/10) 0
      (by norm_num)).2.2⟩

/-! ### C3: behaviour on an all-zero probability vector -/

/-- **C3 (counterexample).**  On a row whose probabilities are all zero (so
top-p clamping leaves an all-zero vector), `sample_topp` does NOT return a
token: `WeightedIndex::new` fails and the `.unwrap()` panics (modelled as
`none`) — there is no argmax fallback. -/
theorem sample_topp_all_zero_counterexample :
    sampleToppRow ([0, 0, 0] : List ℚ) (1/2) 0 = none := by
  norm_num [sampleToppRow, sampleMultinomial, clampTopP, clampStep,
    argsortDesc, descRel, List.insertionSort, List.orderedInsert,
    List.range_succ]

/-- **C3 (amended).**  Whenever the probability row is all zero (the
situation in which the claim promises an argmax fallback), the clamped
weights are still all zero, `sample_multinomial`'s `WeightedIndex::new`
returns an error, and `sample_topp` unwraps it — a panic (`none`), for every
`p` and every rng draw.  `sample` has no argmax fallback for this case. -/
theorem sample_topp_all_zero_no_fallback (row : List α) (p u : α)
    (hz : ∀ w ∈ row, w = 0) :
    sampleToppRow row p u = none := by
  unfold sampleToppRow sampleMultinomial
  rw [if_pos]
  right
  have hlen : (clampTopP p (argsortDesc row) row).1.length = row.length :=
    clampTopP_argsort_length row p
  have hall : ∀ w ∈ (clampTopP p (argsortDesc row) row).1, w = 0 := by
    intro w hw
    rcases List.mem_iff_getElem.mp hw with ⟨j, hj, rfl⟩
    have hjrow : j < row.length := by omega
    rw [← List.getD_eq_getElem _ 0 hj]
    rcases clampLoop_entries p (argsortDesc row) row 0 j with h | h
    · unfold clampTopP
      rw [h, List.getD_eq_getElem _ _ hjrow]
      exact hz _ (List.getElem_mem hjrow)
    · unfold clampTopP
      rw [h]
  rw [List.sum_eq_zero hall]

/-- Witness for the amended C3. -/
theorem sample_topp_all_zero_no_fallback_witness :
    (∀ w ∈ ([0, 0] : List ℚ), w = 0) ∧
    sampleToppRow ([0, 0] : List ℚ) (1/3) 0 = none :=
  ⟨by norm_num,
    sample_topp_all_zero_no_fallback ([0, 0] : List ℚ) (1/3) 0 (by norm_num)⟩

theorem keptCount_pos {p c : α} (hc : ¬p ≤ c) {vals : List α}
    (hne : vals ≠ []) : 1 ≤ keptCount p vals c := by
  cases vals with
  | nil => exact absurd rfl hne
  | cons v vs =>
    unfold keptCount
    rw [if_neg hc]
    omega

/-- **C6.**  For every probability row summing to 1 and every `p` with
`0 < p < 1`, after top-p clamping the retained mass is at least `p`, and the
retained set is minimal: there is a retained token of minimal retained
probability (the pivot) whose removal drops the retained mass strictly
below `p`. -/
theorem topp_mass_minimal (row : List α) (p : α)
    (h0 : ∀ w ∈ row, 0 ≤ w) (h1 : row.sum = 1) (hp0 : 0 < p) (hp1 : p < 1) :
    p ≤ (clampTopP p (argsortDesc row) row).1.sum ∧
    ∃ j, j < row.length ∧
      0 < (clampTopP p (argsortDesc row) row).1.getD j 0 ∧
      (clampTopP p (argsortDesc row) row).1.sum
        - (clampTopP p (argsortDesc row) row).1.getD j 0 < p ∧
      ∀ j', j' < row.length →
        0 < (clampTopP p (argsortDesc row) row).1.getD j' 0 →
        (clampTopP p (argsortDesc row) row).1.getD j 0
          ≤ (clampTopP p (argsortDesc row) row).1.getD j' 0 := by
  have hvperm := argsortDesc_vals_perm row
  have hvsum : ((argsortDesc row).map (fun i => row.getD i 0)).sum = 1 :=
    hvperm.sum_eq.trans h1
  have hv0 := argsort_vals_nonneg h0
  have hvlen : ((argsortDesc row).map (fun i => row.getD i 0)).length
      = (argsortDesc row).length := List.length_map _ _
  have hidxlen : (argsortDesc row).length = row.length := argsortDesc_length row
  have hrlen : 0 < row.length := by
    rcases List.eq_nil_or_concat row with h | _
    · rw [h] at h1
      norm_num at h1
    · cases row with
      | nil => simp at h1
      | cons a l => simp
  have hkle := keptCount_le_length p
    ((argsortDesc row).map (fun i => row.getD i 0)) 0
  have hkpos : 1 ≤ keptCount p ((argsortDesc row).map (fun i => row.getD i 0)) 0 := by
    apply keptCount_pos (by linarith)
    intro h
    rw [h] at hvlen
    simp at hvlen
    omega
  have hmass := clampTopP_argsort_sum row p
  have hmass_ge : p ≤ (clampTopP p (argsortDesc row) row).1.sum := by
    by_cases hkl : keptCount p ((argsortDesc row).map (fun i => row.getD i 0)) 0
        < ((argsortDesc row).map (fun i => row.getD i 0)).length
    · have := keptCount_stop p ((argsortDesc row).map (fun i => row.getD i 0)) 0 hkl
      rw [hmass]
      linarith
    · have heq : keptCount p ((argsortDesc row).map (fun i => row.getD i 0)) 0
          = ((argsortDesc row).map (fun i => row.getD i 0)).length := by omega
      rw [hmass, heq, List.take_length, hvsum]
      linarith
  refine ⟨hmass_ge, ?_⟩
  -- the pivot: the last kept token in sorted order
  have hn0k : keptCount p ((argsortDesc row).map (fun i => row.getD i 0)) 0 - 1
      < keptCount p ((argsortDesc row).map (fun i => row.getD i 0)) 0 := by omega
  have hn0len : keptCount p ((argsortDesc row).map (fun i => row.getD i 0)) 0 - 1
      < (argsortDesc row).length := by omega
  have hn0vlen : keptCount p ((argsortDesc row).map (fun i => row.getD i 0)) 0 - 1
      < ((argsortDesc row).map (fun i => row.getD i 0)).length := by omega
  refine ⟨(argsortDesc row).getD
    (keptCount p ((argsortDesc row).map (fun i => row.getD i 0)) 0 - 1) 0,
    ?_, ?_, ?_, ?_⟩
  · have hmem : (argsortDesc row).getD
        (keptCount p ((argsortDesc row).map (fun i => row.getD i 0)) 0 - 1) 0
        ∈ argsortDesc row := by
      rw [List.getD_eq_getElem _ _ hn0len]
      exact List.getElem_mem hn0len
    exact mem_argsortDesc.mp hmem
  all_goals {
    have hres_j := clampTopP_argsort_getD row p hn0len
    rw [if_pos hn0k] at hres_j
    have hpre := keptCount_prefix_lt p
      ((argsortDesc row).map (fun i => row.getD i 0)) 0 _ hn0k
    rw [zero_add] at hpre
    have hsucc : keptCount p ((argsortDesc row).map (fun i => row.getD i 0)) 0 - 1 + 1
        = keptCount p ((argsortDesc row).map (fun i => row.getD i 0)) 0 := by omega
    have htake_succ : (((argsortDesc row).map (fun i => row.getD i 0)).take
          (keptCount p ((argsortDesc row).map (fun i => row.getD i 0)) 0)).sum
        = (((argsortDesc row).map (fun i => row.getD i 0)).take
            (keptCount p ((argsortDesc row).map (fun i => row.getD i 0)) 0 - 1)).sum
          + ((argsortDesc row).map (fun i => row.getD i 0)).getD
              (keptCount p ((argsortDesc row).map (fun i => row.getD i 0)) 0 - 1) 0 := by
      conv_lhs => rw [← hsucc]
      rw [List.sum_take_succ _ _ hn0vlen, List.getD_eq_getElem _ _ hn0vlen]
    have hpos_piv : 0 < ((argsortDesc row).map (fun i => row.getD i 0)).getD
        (keptCount p ((argsortDesc row).map (fun i => row.getD i 0)) 0 - 1) 0 := by
      rw [hmass, htake_succ] at hmass_ge
      linarith
    first
    | -- positivity of the pivot entry
      (rw [hres_j]; exact hpos_piv)
    | -- removing the pivot drops below p
      (rw [hres_j, hmass, htake_succ]; linarith)
    | -- minimality among retained tokens
      (intro j' hj'len hj'pos
       have hj'mem : j' ∈ argsortDesc row := mem_argsortDesc.mpr hj'len
       rcases List.mem_iff_getElem.mp hj'mem with ⟨n', hn', he⟩
       have hres_j' := clampTopP_argsort_getD row p hn'
       rw [List.getD_eq_getElem _ _ hn', he] at hres_j'
       by_cases hn'k : n' < keptCount p ((argsortDesc row).map (fun i => row.getD i 0)) 0
       · rw [if_pos hn'k] at hres_j'
         rw [hres_j, hres_j']
         rcases Nat.lt_or_ge n'
             (keptCount p ((argsortDesc row).map (fun i => row.getD i 0)) 0 - 1) with hlt | hge
         · have hs := argsortDesc_vals_sorted row
           have := @List.Sorted.rel_get_of_lt _ _ _ hs
             ⟨n', by omega⟩
             ⟨keptCount p ((argsortDesc row).map (fun i => row.getD i 0)) 0 - 1,
               by omega⟩
             (by exact hlt)
           rw [List.getD_eq_getElem _ _ hn0vlen,
             List.getD_eq_getElem _ _ (by omega : n' <
               ((argsortDesc row).map (fun i => row.getD i 0)).length)]
           exact this
         · have : n' = keptCount p ((argsortDesc row).map (fun i => row.getD i 0)) 0 - 1 := by
             omega
           rw [this]
       · rw [if_neg hn'k] at hres_j'
         rw [hres_j'] at hj'pos
         exact absurd hj'pos (lt_irrefl 0))
  }

/-- Witness for C6 at a concrete probability row. -/
theorem topp_mass_minimal_witness :
    ((∀ w ∈ ([1/2, 3/10, 1/5] : List ℚ), 0 ≤ w) ∧
      ([1/2, 3/10, 1/5] : List ℚ).sum = 1 ∧ (0 : ℚ) < 7/10 ∧ (7/10 : ℚ) < 1) ∧
    7/10 ≤ (clampTopP (7/10) (argsortDesc ([1/2, 3/10, 1/5] : List ℚ))
      ([1/2, 3/10, 1/5] : List ℚ)).1.sum :=
  ⟨⟨by norm_num, by norm_num, by norm_num, by norm_num⟩,
    (topp_mass_minimal ([1/2, 3/10, 1/5] : List ℚ) (7/10) (by norm_num)
      (by norm_num) (by norm_num) (by norm_num)).1⟩

/-! ### C4: the batch repetition penalty -/

theorem penalizeAt_length (pen : α) (row : List α) (t : ℕ) :
    (penalizeAt pen row t).length = row.length := by
  unfold penalizeAt
  split
  · rw [List.length_set]
  · rfl

theorem penalizeAt_getD_self {pen : α} {row : List α} {t : ℕ}
    (h : t < row.length) :
    (penalizeAt pen row t).getD t 0 = penalizeVal pen (row.getD t 0) := by
  unfold penalizeAt
  rw [if_pos h]
  exact getD_set_self h

theorem penalizeAt_getD_ne {pen : α} {row : List α} {t j : ℕ} (h : t ≠ j) :
    (penalizeAt pen row t).getD j 0 = row.getD j 0 := by
  unfold penalizeAt
  split
  · exact getD_set_ne h
  · rfl

theorem penalizeTokens_length (pen : α) :
    ∀ (ts seen : List ℕ) (row : List α),
      (penalizeTokens pen ts seen row).length = row.length := by
  intro ts
  induction ts with
  | nil => intro seen row; rfl
  | cons t ts ih =>
    intro seen row
    unfold penalizeTokens
    by_cases hts : t ∈ seen
    · rw [if_pos hts, ih]
    · rw [if_neg hts, ih, penalizeAt_length]

/-- The penalty loop applies `penalizeVal` exactly once to each distinct
token id in `ts` that is not yet in `seen`, and leaves everything else
unchanged. -/
theorem penalizeTokens_getD (pen : α) :
    ∀ (ts seen : List ℕ) (row : List α) (j : ℕ), j < row.length →
      (penalizeTokens pen ts seen row).getD j 0
        = if j ∈ seen then row.getD j 0
          else if j ∈ ts then penalizeVal pen (row.getD j 0)
          else row.getD j 0 := by
  intro ts
  induction ts with
  | nil =>
    intro seen row j hj
    unfold penalizeTokens
    by_cases hjs : j ∈ seen
    · rw [if_pos hjs]
    · rw [if_neg hjs]
      simp
  | cons t ts ih =>
    intro seen row j hj
    unfold penalizeTokens
    by_cases hts : t ∈ seen
    · rw [if_pos hts, ih seen row j hj]
      by_cases hjs : j ∈ seen
      · rw [if_pos hjs, if_pos hjs]
      · rw [if_neg hjs, if_neg hjs]
        have he : (j ∈ t :: ts) ↔ (j ∈ ts) := by
          constructor
          · intro h
            rcases List.mem_cons.mp h with rfl | h
            · exact absurd hts hjs
            · exact h
          · exact List.mem_cons_of_mem t
        rw [if_congr he rfl rfl]
    · rw [if_neg hts]
      have hlen' : j < (penalizeAt pen row t).length := by
        rw [penalizeAt_length]
        exact hj
      rw [ih (t :: seen) (penalizeAt pen row t) j hlen']
      by_cases hjt : j = t
      · subst hjt
        rw [if_pos (List.mem_cons_self j seen), if_neg hts,
          if_pos (List.mem_cons_self j ts)]
        exact penalizeAt_getD_self hj
      · have hne : t ≠ j := fun he => hjt he.symm
        simp only [penalizeAt_getD_ne hne]
        have e1 : (j ∈ t :: seen) ↔ j ∈ seen := by
          simp [List.mem_cons, hjt]
        have e2 : (j ∈ t :: ts) ↔ j ∈ ts := by
          simp [List.mem_cons, hjt]
        rw [if_congr e1 rfl rfl, if_congr e2 rfl rfl]

/-- Row extraction from the batched penalty. -/
theorem applyBatchRepeatPenalty_getD {logits : List (List α)}
    (penalties : List α) (context : List (List ℕ)) {b : ℕ}
    (hb : b < logits.length) :
    (applyBatchRepeatPenalty logits penalties context).getD b []
      = penalizeRow (penalties.getD b 0) (context.getD b [])
          (logits.getD b []) := by
  unfold applyBatchRepeatPenalty
  rw [List.getD_eq_getElem _ _
    (by rw [List.length_map, List.length_range]; exact hb)]
  rw [List.getElem_map, List.getElem_range]

/-- **C4.**  For every batch row `b` with `penalties[b] ∉ {0, 1}` and
`|context[b]| > 1`, `apply_batch_repeat_penalty` transforms each token `t`
occurring in `context[b]` exactly once (duplicates have no extra effect):
`logits[b, t]` is divided by the penalty if non-negative and multiplied by
it otherwise; every entry for a token not in the context, and every row not
meeting the precondition, is unchanged, and the result is a fresh tensor of
the same shape (the functional embedding leaves the input untouched by
construction).  In particular, penalty `2.0` on context `[[1,1,2]]` and
logits `[[1.0, 2.0, -1.0, 0.5]]` yields `[[1.0, 1.0, -2.0, 0.5]]`. -/
theorem apply_batch_repeat_penalty_spec :
    (∀ (logits : List (List α)) (penalties : List α)
      (context : List (List ℕ)) (b : ℕ),
      b < logits.length →
      penalties.length = logits.length →
      context.length = logits.length →
      (applyBatchRepeatPenalty logits penalties context).length
        = logits.length ∧
      ((penalties.getD b 0 ≠ 1 ∧ penalties.getD b 0 ≠ 0 ∧
          1 < (context.getD b []).length) →
        ∀ t, t < (logits.getD b []).length →
          ((applyBatchRepeatPenalty logits penalties context).getD b []).getD t 0
            = if t ∈ context.getD b []
              then penalizeVal (penalties.getD b 0) ((logits.getD b []).getD t 0)
              else (logits.getD b []).getD t 0) ∧
      (¬(penalties.getD b 0 ≠ 1 ∧ penalties.getD b 0 ≠ 0 ∧
          1 < (context.getD b []).length) →
        (applyBatchRepeatPenalty logits penalties context).getD b []
          = logits.getD b [])) ∧
    applyBatchRepeatPenalty ([[1, 2, -1, 1/2]] : List (List ℚ)) [2] [[1, 1, 2]]
      = [[1, 1, -2, 1/2]] := by
  constructor
  · intro logits penalties context b hb _ _
    refine ⟨?_, ?_, ?_⟩
    · unfold applyBatchRepeatPenalty
      rw [List.length_map, List.length_range]
    · intro hcond t ht
      rw [applyBatchRepeatPenalty_getD penalties context hb]
      unfold penalizeRow
      rw [if_pos hcond]
      rw [penalizeTokens_getD _ _ [] _ t ht]
      simp only [List.not_mem_nil, if_neg, if_false]
    · intro hcond
      rw [applyBatchRepeatPenalty_getD penalties context hb]
      unfold penalizeRow
      rw [if_neg hcond]
  · norm_num [applyBatchRepeatPenalty, penalizeRow, penalizeTokens,
      penalizeAt, penalizeVal, List.range_succ]

/-- Witness for C4's universally quantified part. -/
theorem apply_batch_repeat_penalty_spec_witness :
    (0 < 1 ∧ ([3] : List ℚ).length = 1 ∧ ([[0, 0]] : List (List ℕ)).length = 1) ∧
    (applyBatchRepeatPenalty ([[1, 2]] : List (List ℚ)) [3] [[0, 0]]).length = 1 :=
  ⟨⟨by decide, rfl, rfl⟩,
    (apply_batch_repeat_penalty_spec.1 ([[1, 2]] : List (List ℚ)) [3] [[0, 0]] 0
      (by decide) rfl rfl).1⟩

/-! ### C5: repetition penalty vs. softmax probability -/

theorem ext_getD {l1 l2 : List α} (hlen : l1.length = l2.length)
    (h : ∀ j, j < l1.length → l1.getD j 0 = l2.getD j 0) : l1 = l2 := by
  apply List.ext_getElem hlen
  intro n h1 h2
  rw [← List.getD_eq_getElem l1 0 h1, ← List.getD_eq_getElem l2 0 h2]
  exact h n h1

theorem getD_map_of_lt {β γ : Type} (f : β → γ) (d : γ) (d' : β)
    {l : List β} {n : ℕ} (hn : n < l.length) :
    (l.map f).getD n d = f (l.getD n d') := by
  rw [List.getD_eq_getElem _ _ (by rw [List.length_map]; exact hn),
    List.getElem_map, List.getD_eq_getElem _ _ hn]

theorem sum_map_set (f : α → α) :
    ∀ (l : List α) (n : ℕ), n < l.length → ∀ a : α,
      ((l.set n a).map f).sum = (l.map f).sum - f (l.getD n 0) + f a := by
  intro l
  induction l with
  | nil => intro n hn; simp at hn
  | cons v vs ih =>
    intro n hn a
    cases n with
    | zero => simp [List.set_cons_zero]; ring
    | succ m =>
      rw [List.set_cons_succ, List.map_cons, List.sum_cons, List.map_cons,
        List.sum_cons, List.getD_cons_succ, ih m (by simpa using hn) a]
      ring

/-- With `pen > 1`, the penalty update never increases a logit. -/
theorem penalizeVal_le {pen : α} (hpen : 1 < pen) (v : α) :
    penalizeVal pen v ≤ v := by
  unfold penalizeVal
  by_cases hv : 0 ≤ v
  · rw [if_pos hv]
    exact div_le_self hv (le_of_lt hpen)
  · rw [if_neg hv]
    have := mul_le_mul_of_nonpos_left (le_of_lt hpen) (le_of_lt (lt_of_not_le hv))
    simpa using this

/-- With all context entries equal to `t`, the penalised row is the original
row with only entry `t` updated. -/
theorem penalizeRow_single_token (pen : α) (ctx : List ℕ) (row : List α)
    (t : ℕ) (hpen1 : pen ≠ 1) (hpen0 : pen ≠ 0) (hctx : ∀ u ∈ ctx, u = t)
    (hlen : 1 < ctx.length) (ht : t < row.length) :
    penalizeRow pen ctx row = row.set t (penalizeVal pen (row.getD t 0)) := by
  unfold penalizeRow
  rw [if_pos ⟨hpen1, hpen0, hlen⟩]
  have htmem : t ∈ ctx := by
    cases ctx with
    | nil => simp at hlen
    | cons c cs => exact (hctx c (List.mem_cons_self c cs)) ▸ List.mem_cons_self c cs
  apply ext_getD
  · rw [penalizeTokens_length, List.length_set]
  · intro j hj
    rw [penalizeTokens_length] at hj
    rw [penalizeTokens_getD pen ctx [] row j hj]
    simp only [List.not_mem_nil, if_false]
    by_cases hjt : j = t
    · subst hjt
      rw [if_pos htmem, getD_set_self hj]
    · have hjc : j ∉ ctx := fun hm => hjt (hctx j hm)
      rw [if_neg hjc, getD_set_ne (fun he => hjt he.symm)]

/-- **C5 (counterexample).**  With penalty `3 > 1`, context `[0, 1]` (two
distinct penalised tokens) and logits `[1, 3]`, the softmax probability of
context token `0` strictly INCREASES after the penalty: penalising the
dominant token 1 shrinks the denominator more than the numerator. -/
theorem repeat_penalty_prob_counterexample :
    (softmax Real.exp ([1, 3] : List ℝ)).getD 0 0
      < (softmax Real.exp (penalizeRow 3 [0, 1] ([1, 3] : List ℝ))).getD 0 0 := by
  have hrow : penalizeRow (3 : ℝ) [0, 1] [1, 3] = [1/3, 1] := by
    norm_num [penalizeRow, penalizeTokens, penalizeAt, penalizeVal]
  rw [hrow]
  have e1 : Real.exp 1 * Real.exp 1 = Real.exp 2 := by
    rw [← Real.exp_add]; norm_num
  have e2 : Real.exp (1/3) * Real.exp 3 = Real.exp (10/3) := by
    rw [← Real.exp_add]; norm_num
  have e3 : Real.exp 2 < Real.exp (10/3) := Real.exp_lt_exp.mpr (by norm_num)
  have p1 := Real.exp_pos (1 : ℝ)
  have p3 := Real.exp_pos (3 : ℝ)
  have p13 := Real.exp_pos ((1 : ℝ)/3)
  simp only [softmax, List.map_cons, List.map_nil, List.sum_cons,
    List.sum_nil, List.getD_cons_zero]
  rw [div_lt_div_iff₀ (by linarith) (by linarith)]
  nlinarith [e1, e2, e3, p1, p3, p13]

/-- **C5 (amended).**  For `penalty > 1` and a row whose context penalises a
single distinct token `t` (the case `|context| > 1` with all entries equal),
the softmax probability of `t` after the penalty is at most its probability
before; with several distinct penalised tokens the claim fails (see the
counterexample). -/
theorem repeat_penalty_prob_monotone_single_token (pen : ℝ) (row : List ℝ)
    (ctx : List ℕ) (t : ℕ) (hpen : 1 < pen) (hctx : ∀ u ∈ ctx, u = t)
    (hlen : 1 < ctx.length) (ht : t < row.length) :
    (softmax Real.exp (penalizeRow pen ctx row)).getD t 0
      ≤ (softmax Real.exp row).getD t 0 := by
  have hrow := penalizeRow_single_token pen ctx row t
    (by linarith) (by linarith) hctx hlen ht
  rw [hrow]
  have hslen : t < (row.set t (penalizeVal pen (row.getD t 0))).length := by
    rw [List.length_set]; exact ht
  rw [softmax, softmax, getD_map_of_lt _ 0 0 hslen, getD_map_of_lt _ 0 0 ht]
  rw [getD_set_self ht]
  set a := row.getD t 0 with ha
  set b := penalizeVal pen a with hb
  have hba : b ≤ a := penalizeVal_le hpen a
  have hS : ((row.set t b).map Real.exp).sum
      = (row.map Real.exp).sum - Real.exp a + Real.exp b :=
    sum_map_set Real.exp row t ht b
  have hmem : Real.exp a ∈ row.map Real.exp := by
    rw [ha, List.getD_eq_getElem _ _ ht]
    exact List.mem_map_of_mem Real.exp (List.getElem_mem ht)
  have hS0 : Real.exp a ≤ (row.map Real.exp).sum :=
    List.single_le_sum (fun x hx => by
      rcases List.mem_map.mp hx with ⟨y, _, rfl⟩
      exact le_of_lt (Real.exp_pos y)) _ hmem
  have hSpos : 0 < (row.map Real.exp).sum := by
    apply List.sum_pos
    · intro x hx
      rcases List.mem_map.mp hx with ⟨y, _, rfl⟩
      exact Real.exp_pos y
    · intro he
      rw [he] at hmem
      exact List.not_mem_nil _ hmem
  have hS'pos : 0 < ((row.set t b).map Real.exp).sum := by
    rw [hS]
    have := Real.exp_pos b
    linarith
  have hS2pos : 0 < (row.map Real.exp).sum - Real.exp a + Real.exp b := by
    rw [← hS]
    exact hS'pos
  rw [hS, div_le_div_iff₀ hS2pos hSpos]
  have hexp : Real.exp b ≤ Real.exp a := Real.exp_le_exp.mpr hba
  nlinarith [hexp, hS0, Real.exp_pos a, Real.exp_pos b]

/-- Witness for the amended C5. -/
theorem repeat_penalty_prob_monotone_single_token_witness :
    ((1 : ℝ) < 2 ∧ (∀ u ∈ ([0, 0] : List ℕ), u = 0) ∧
      1 < ([0, 0] : List ℕ).length ∧ 0 < ([5, 7] : List ℝ).length) ∧
    (softmax Real.exp (penalizeRow 2 [0, 0] ([5, 7] : List ℝ))).getD 0 0
      ≤ (softmax Real.exp ([5, 7] : List ℝ)).getD 0 0 :=
  ⟨⟨by norm_num, by simp, by norm_num, by norm_num⟩,
    repeat_penalty_prob_monotone_single_token 2 [5, 7] [0, 0] 0 (by norm_num)
      (by simp) (by norm_num) (by norm_num)⟩

/-! ### C8: top-k slicing -/

theorem sliceTo_eq_some {β : Type} {xs : List β} {k : ℕ} (h : k ≤ xs.length) :
    sliceTo xs k = some (xs.take k) := by
  unfold sliceTo
  rw [if_pos h]

theorem sliceTo_eq_none {β : Type} {xs : List β} {k : ℕ} (h : xs.length < k) :
    sliceTo xs k = none := by
  unfold sliceTo
  rw [if_neg (by omega)]

/-- The clamping loop of `sample_topk_topp` (visiting positions `0..len` in
order) keeps a prefix of the sliced weights and zeroes the rest. -/
theorem clampTopP_range_eq (p : α) (prs : List α) :
    (clampTopP p (List.range prs.length) prs).1
      = prs.take (keptCount p prs 0)
        ++ List.replicate (prs.length - keptCount p prs 0) 0 := by
  obtain ⟨h1, h2, h3⟩ := clampLoop_spec p (List.range prs.length) prs 0
    (List.nodup_range _) (fun i hi => List.mem_range.mp hi)
  have hlen : (clampTopP p (List.range prs.length) prs).1.length
      = prs.length := by
    unfold clampTopP
    exact clampLoop_length p _ prs 0
  have hres := map_getD_range (clampTopP p (List.range prs.length) prs).1
  rw [hlen] at hres
  rw [← hres]
  unfold clampTopP
  rw [h2, map_getD_range, List.length_range]

/-- The largest probability in a non-negative row summing to 1 is positive,
hence so is the mass of any non-empty top-k slice. -/
theorem topkWeights_sum_pos {row : List α} (h0 : ∀ w ∈ row, 0 ≤ w)
    (h1 : row.sum = 1) {k : ℕ} (hk : 1 ≤ k) :
    0 < (topkWeights row k).sum := by
  have hv0 := argsort_vals_nonneg h0
  have hvsum : ((argsortDesc row).map (fun i => row.getD i 0)).sum = 1 :=
    (argsortDesc_vals_perm row).sum_eq.trans h1
  have hvne : ((argsortDesc row).map (fun i => row.getD i 0)) ≠ [] := by
    intro h
    rw [h] at hvsum
    norm_num at hvsum
  have hvlen : 0 < ((argsortDesc row).map (fun i => row.getD i 0)).length :=
    List.length_pos.mpr hvne
  -- the head (largest) value is positive
  have hhead : 0 < ((argsortDesc row).map (fun i => row.getD i 0)).getD 0 0 := by
    by_contra hle
    push_neg at hle
    have hzero : ∀ x ∈ (argsortDesc row).map (fun i => row.getD i 0), x = 0 := by
      intro x hx
      rcases List.mem_iff_getElem.mp hx with ⟨n, hn, rfl⟩
      have hle2 : ((argsortDesc row).map (fun i => row.getD i 0)).getD n 0
          ≤ ((argsortDesc row).map (fun i => row.getD i 0)).getD 0 0 := by
        rcases Nat.eq_zero_or_pos n with rfl | hn0
        · exact le_refl _
        · have hs := argsortDesc_vals_sorted row
          have := @List.Sorted.rel_get_of_lt _ _ _ hs ⟨0, hvlen⟩ ⟨n, hn⟩
            (by exact hn0)
          rw [List.getD_eq_getElem _ _ hn, List.getD_eq_getElem _ _ hvlen]
          exact this
      have hge : 0 ≤ ((argsortDesc row).map (fun i => row.getD i 0)).getD n 0 := by
        rw [List.getD_eq_getElem _ _ hn]
        exact hv0 _ (List.getElem_mem hn)
      rw [← List.getD_eq_getElem _ 0 hn]
      linarith
    rw [List.sum_eq_zero hzero] at hvsum
    norm_num at hvsum
  have hmem : ((argsortDesc row).map (fun i => row.getD i 0)).getD 0 0
      ∈ topkWeights row k := by
    unfold topkWeights
    have hlen : 0 < (((argsortDesc row).map
        (fun i => row.getD i 0)).take k).length := by
      rw [List.length_take]
      omega
    have : (((argsortDesc row).map (fun i => row.getD i 0)).take k).getD 0 0
        = ((argsortDesc row).map (fun i => row.getD i 0)).getD 0 0 := by
      rw [List.getD_eq_getElem _ _ hlen, List.getD_eq_getElem _ _ (by omega)]
      exact List.getElem_take _
    rw [← this, List.getD_eq_getElem _ _ hlen]
    exact List.getElem_mem hlen
  have hnn : ∀ x ∈ topkWeights row k, 0 ≤ x := by
    intro x hx
    exact hv0 x (List.mem_of_mem_take hx)
  have := List.single_le_sum hnn _ hmem
  linarith

/-- **C8 (counterexample).**  With vocabulary size 2 and `k = 3`, the top-k
sampler does NOT behave as if `k` were clamped to `min(k, 2)`: the slice
`asort[b][0..k]` is out of range and the code panics (`none`). -/
theorem sample_topk_oob_counterexample :
    sampleTopkRow ([1/2, 1/2] : List ℚ) 3 0 = none := by
  norm_num [sampleTopkRow, sliceTo, argsortDesc, descRel, List.insertionSort,
    List.orderedInsert, List.range_succ]

/-- **C8 (amended).**  For `1 ≤ k ≤ vocab_size`, both `sample_topk` and
`sample_topk_topp` succeed on a probability row (a token is returned, no
panic); for `k > vocab_size` the slice of the sorted row is out of range and
the code panics — `k` is NOT clamped to `min(k, vocab_size)`. -/
theorem sample_topk_in_range_succeeds (row : List α) (k : ℕ) (p u : α)
    (h0 : ∀ w ∈ row, 0 ≤ w) (h1 : row.sum = 1) (hk : 1 ≤ k)
    (hkV : k ≤ row.length) :
    (sampleTopkRow row k u).isSome = true ∧
    (sampleTopkToppRow row k p u).isSome = true := by
  have halen : (argsortDesc row).length = row.length := argsortDesc_length row
  have hvlen : ((argsortDesc row).map (fun i => row.getD i 0)).length
      = row.length := by rw [List.length_map, halen]
  have hs1 : sliceTo (argsortDesc row) k
      = some ((argsortDesc row).take k) := sliceTo_eq_some (by omega)
  have hs2 : sliceTo ((argsortDesc row).map (fun i => row.getD i 0)) k
      = some (topkWeights row k) := sliceTo_eq_some (by omega)
  have hwlen : (topkWeights row k).length = k := by
    unfold topkWeights
    rw [List.length_take]
    omega
  have hilen : ((argsortDesc row).take k).length = k := by
    rw [List.length_take]
    omega
  have hwnn : ∀ x ∈ topkWeights row k, 0 ≤ x :=
    fun x hx => argsort_vals_nonneg h0 x (List.mem_of_mem_take hx)
  have hwpos := topkWeights_sum_pos h0 h1 hk
  -- plain top-k
  have hmult1 : sampleMultinomial (topkWeights row k) u
      = some (multIdx (topkWeights row k) (u * (topkWeights row k).sum)) :=
    sampleMultinomial_eq_some u hwnn hwpos
  have hwne : topkWeights row k ≠ [] := by
    intro h
    rw [h] at hwlen
    simp at hwlen
    omega
  have hmlt1 : multIdx (topkWeights row k) (u * (topkWeights row k).sum) < k := by
    have h := multIdx_lt (topkWeights row k) (u * (topkWeights row k).sum) hwne
    rw [hwlen] at h
    exact h
  have hfold : ((argsortDesc row).map (fun i => row.getD i 0)).take k
      = topkWeights row k := rfl
  constructor
  · unfold sampleTopkRow
    rw [hs1, hs2]
    simp only [hfold, hmult1, Option.some_bind]
    rw [List.getElem?_eq_getElem (by omega), Option.isSome_some]
  · unfold sampleTopkToppRow
    rw [hs1, hs2]
    simp only [hfold]
    by_cases hcond : p ≤ 0 ∨ (topkWeights row k).sum ≤ p
    · simp only [if_pos hcond, hmult1, Option.some_bind]
      rw [List.getElem?_eq_getElem (by omega), Option.isSome_some]
    · simp only [if_neg hcond]
      push_neg at hcond
      have hcl_eq := clampTopP_range_eq p (topkWeights row k)
      have hcl_len : (clampTopP p (List.range (topkWeights row k).length)
          (topkWeights row k)).1.length = k := by
        unfold clampTopP
        rw [clampLoop_length, hwlen]
      have hcl_nn : ∀ x ∈ (clampTopP p (List.range (topkWeights row k).length)
          (topkWeights row k)).1, 0 ≤ x := by
        intro x hx
        rw [hcl_eq] at hx
        rcases List.mem_append.mp hx with h | h
        · exact hwnn x (List.mem_of_mem_take h)
        · rw [List.eq_of_mem_replicate h]
      have hk'le := keptCount_le_length p (topkWeights row k) 0
      have hcl_sum : (clampTopP p (List.range (topkWeights row k).length)
          (topkWeights row k)).1.sum
          = ((topkWeights row k).take (keptCount p (topkWeights row k) 0)).sum := by
        rw [hcl_eq, List.sum_append, List.sum_replicate, smul_zero, add_zero]
      have hcl_pos : 0 < (clampTopP p (List.range (topkWeights row k).length)
          (topkWeights row k)).1.sum := by
        rw [hcl_sum]
        by_cases hkl : keptCount p (topkWeights row k) 0
            < (topkWeights row k).length
        · have := keptCount_stop p (topkWeights row k) 0 hkl
          linarith [hcond.1]
        · have heq : keptCount p (topkWeights row k) 0
              = (topkWeights row k).length := by omega
          rw [heq, List.take_length]
          linarith [hcond.1, hcond.2]
      have hmult2 := sampleMultinomial_eq_some u hcl_nn hcl_pos
      have hmlt2 : multIdx (clampTopP p (List.range (topkWeights row k).length)
          (topkWeights row k)).1
          (u * (clampTopP p (List.range (topkWeights row k).length)
            (topkWeights row k)).1.sum) < k := by
        have hclne : (clampTopP p (List.range (topkWeights row k).length)
            (topkWeights row k)).1 ≠ [] := by
          intro h
          rw [h] at hcl_pos
          norm_num at hcl_pos
        have h := multIdx_lt (clampTopP p (List.range (topkWeights row k).length)
            (topkWeights row k)).1
          (u * (clampTopP p (List.range (topkWeights row k).length)
            (topkWeights row k)).1.sum) hclne
        rw [hcl_len] at h
        exact h
      rw [hmult2, Option.some_bind, List.getElem?_eq_getElem (by omega),
        Option.isSome_some]

/-- Witness for the amended C8. -/
theorem sample_topk_in_range_succeeds_witness :
    ((∀ w ∈ ([1/2, 1/2] : List ℚ), 0 ≤ w) ∧ ([1/2, 1/2] : List ℚ).sum = 1 ∧
      1 ≤ 2 ∧ 2 ≤ ([1/2, 1/2] : List ℚ).length) ∧
    (sampleTopkRow ([1/2, 1/2] : List ℚ) 2 (1/4)).isSome = true :=
  ⟨⟨by norm_num, by norm_num, by norm_num, by norm_num⟩,
    (sample_topk_in_range_succeeds ([1/2, 1/2] : List ℚ) 2 (1/2) (1/4)
      (by norm_num) (by norm_num) (by norm_num) (by norm_num)).1⟩

/-! ### C7: top-k sampling through the softmax -/

/-- `orderedInsert` only looks at the truth values of the comparator. -/
theorem orderedInsert_congr {r1 r2 : ℕ → ℕ → Prop} [DecidableRel r1]
    [DecidableRel r2] (a : ℕ) :
    ∀ l : List ℕ, (∀ b ∈ l, (r1 a b ↔ r2 a b)) →
      List.orderedInsert r1 a l = List.orderedInsert r2 a l := by
  intro l
  induction l with
  | nil => intro _; rfl
  | cons b bs ih =>
    intro h
    unfold List.orderedInsert
    by_cases hr : r1 a b
    · rw [if_pos hr, if_pos ((h b (List.mem_cons_self b bs)).mp hr)]
    · rw [if_neg hr,
        if_neg (fun h2 => hr ((h b (List.mem_cons_self b bs)).mpr h2)),
        ih (fun c hc => h c (List.mem_cons_of_mem b hc))]

/-- `insertionSort` only looks at the truth values of the comparator. -/
theorem insertionSort_congr {r1 r2 : ℕ → ℕ → Prop} [DecidableRel r1]
    [DecidableRel r2] :
    ∀ l : List ℕ, (∀ a ∈ l, ∀ b ∈ l, (r1 a b ↔ r2 a b)) →
      List.insertionSort r1 l = List.insertionSort r2 l := by
  intro l
  induction l with
  | nil => intro _; rfl
  | cons a as ih =>
    intro h
    simp only [List.insertionSort]
    rw [ih (fun x hx y hy => h x (List.mem_cons_of_mem a hx) y
      (List.mem_cons_of_mem a hy))]
    apply orderedInsert_congr
    intro b hb
    have hb' : b ∈ as := (List.mem_insertionSort r2).mp hb
    exact h a (List.mem_cons_self a as) b (List.mem_cons_of_mem a hb')

/-- Two rows (possibly over different scalar types) with order-isomorphic
entries have the same descending argsort. -/
theorem argsortDesc_congr {β : Type} [LinearOrderedField β]
    (l1 : List α) (l2 : List β) (hlen : l1.length = l2.length)
    (hiff : ∀ i, i < l1.length → ∀ j, j < l1.length →
      ((l1.getD j 0 < l1.getD i 0) ↔ (l2.getD j 0 < l2.getD i 0)) ∧
      ((l1.getD i 0 = l1.getD j 0) ↔ (l2.getD i 0 = l2.getD j 0))) :
    argsortDesc l1 = argsortDesc l2 := by
  unfold argsortDesc
  rw [← hlen]
  apply insertionSort_congr
  intro a ha b hb
  rw [List.mem_range] at ha hb
  unfold descRel
  exact or_congr (hiff a ha b hb).1 (and_congr (hiff a ha b hb).2 Iff.rfl)

theorem softmax_length (E : α → α) (l : List α) :
    (softmax E l).length = l.length := by
  unfold softmax
  rw [List.length_map]

theorem softmax_getD (E : α → α) {l : List α} {i : ℕ} (hi : i < l.length) :
    (softmax E l).getD i 0 = E (l.getD i 0) / (l.map E).sum := by
  unfold softmax
  exact getD_map_of_lt _ 0 0 hi

theorem sum_map_div (c : α) :
    ∀ l : List α, (l.map (fun x => x / c)).sum = l.sum / c := by
  intro l
  induction l with
  | nil => simp
  | cons v vs ih =>
    rw [List.map_cons, List.sum_cons, List.sum_cons, ih, add_div]

/-- The softmax of a row is a probability vector (total mass 1) as soon as
the total exponential weight is nonzero. -/
theorem softmax_sum (E : α → α) (l : List α) (hS : (l.map E).sum ≠ 0) :
    (softmax E l).sum = 1 := by
  unfold softmax
  have : (l.map fun v => E v / (l.map E).sum)
      = (l.map E).map (fun x => x / (l.map E).sum) := by
    rw [List.map_map]
    rfl
  rw [this, sum_map_div, div_self hS]

theorem softmax_nonneg (l : List ℝ) :
    ∀ w ∈ softmax Real.exp l, 0 ≤ w := by
  intro w hw
  unfold softmax at hw
  rcases List.mem_map.mp hw with ⟨v, hv, rfl⟩
  rcases List.eq_nil_or_concat l with rfl | _
  · simp at hv
  · apply div_nonneg (le_of_lt (Real.exp_pos v))
    apply List.sum_nonneg
    intro x hx
    rcases List.mem_map.mp hx with ⟨y, _, rfl⟩
    exact le_of_lt (Real.exp_pos y)

theorem exp_sum_pos (l : List ℝ) (hne : l ≠ []) :
    0 < (l.map Real.exp).sum := by
  apply List.sum_pos
  · intro x hx
    rcases List.mem_map.mp hx with ⟨y, _, rfl⟩
    exact Real.exp_pos y
  · intro h
    rw [List.map_eq_nil_iff] at h
    exact hne h

/-- Softmax (by a strictly monotone positive-total exponential) does not
change the descending argsort. -/
theorem argsortDesc_softmax {E : ℝ → ℝ} (hE : StrictMono E) (l : List ℝ)
    (hS : 0 < (l.map E).sum) :
    argsortDesc (softmax E l) = argsortDesc l := by
  apply argsortDesc_congr
  · exact softmax_length E l
  · intro i hi j hj
    rw [softmax_length] at hi hj
    rw [softmax_getD E hi, softmax_getD E hj]
    constructor
    · rw [div_lt_div_iff_of_pos_right hS]
      exact hE.lt_iff_lt
    · rw [div_left_inj' (ne_of_gt hS)]
      exact hE.injective.eq_iff

/-- On a probability row with `1 ≤ k ≤ vocab`, `sample_topk` returns the
token found by mapping the drawn position back through the sliced index
table. -/
theorem sampleTopkRow_eq_some (row : List α) (k : ℕ) (u : α)
    (h0 : ∀ w ∈ row, 0 ≤ w) (h1 : row.sum = 1) (hk : 1 ≤ k)
    (hkV : k ≤ row.length) :
    sampleTopkRow row k u
      = some (((argsortDesc row).take k).getD
          (multIdx (topkWeights row k) (u * (topkWeights row k).sum)) 0) ∧
    multIdx (topkWeights row k) (u * (topkWeights row k).sum) < k := by
  have halen : (argsortDesc row).length = row.length := argsortDesc_length row
  have hvlen : ((argsortDesc row).map (fun i => row.getD i 0)).length
      = row.length := by rw [List.length_map, halen]
  have hs1 : sliceTo (argsortDesc row) k
      = some ((argsortDesc row).take k) := sliceTo_eq_some (by omega)
  have hs2 : sliceTo ((argsortDesc row).map (fun i => row.getD i 0)) k
      = some (topkWeights row k) := sliceTo_eq_some (by omega)
  have hwlen : (topkWeights row k).length = k := by
    unfold topkWeights
    rw [List.length_take]
    omega
  have hilen : ((argsortDesc row).take k).length = k := by
    rw [List.length_take]
    omega
  have hwnn : ∀ x ∈ topkWeights row k, 0 ≤ x :=
    fun x hx => argsort_vals_nonneg h0 x (List.mem_of_mem_take hx)
  have hwpos := topkWeights_sum_pos h0 h1 hk
  have hmult1 : sampleMultinomial (topkWeights row k) u
      = some (multIdx (topkWeights row k) (u * (topkWeights row k).sum)) :=
    sampleMultinomial_eq_some u hwnn hwpos
  have hwne : topkWeights row k ≠ [] := by
    intro h
    rw [h] at hwlen
    simp at hwlen
    omega
  have hmlt1 : multIdx (topkWeights row k) (u * (topkWeights row k).sum) < k := by
    have h := multIdx_lt (topkWeights row k) (u * (topkWeights row k).sum) hwne
    rw [hwlen] at h
    exact h
  have hfold : ((argsortDesc row).map (fun i => row.getD i 0)).take k
      = topkWeights row k := rfl
  refine ⟨?_, hmlt1⟩
  unfold sampleTopkRow
  rw [hs1, hs2]
  simp only [hfold, hmult1, Option.some_bind]
  rw [List.getElem?_eq_getElem (by omega), Option.some_inj,
    List.getD_eq_getElem _ _ (by omega)]

/-- **C7.**  For the TopK variant with `1 ≤ k ≤ vocab_size`, `sample`
softmaxes the temperature-scaled logits, keeps the `k` largest probabilities
with their vocabulary indices, samples among those `k`, and maps the drawn
position back through the index table.  In particular `TopK{k=2, temp=1.0}`
on logits `[[1.0, 2.0, 0.5, 3.0]]` can only return token 3 or token 1, and
the two retained weights are `exp 3 / S` and `exp 2 / S` — conditional
probabilities `softmax([3, 2]) ≈ [0.731, 0.269]`. -/
theorem sample_topk_spec :
    (∀ (row : List ℝ) (k : ℕ) (u : ℝ),
      (∀ w ∈ row, 0 ≤ w) → row.sum = 1 → 1 ≤ k → k ≤ row.length →
      ∃ m, m < k ∧ sampleTopkRow row k u
          = some (((argsortDesc row).take k).getD m 0)) ∧
    (∀ u : ℝ,
      (sampleTopkRow ((probsOf Real.exp 1 [[1, 2, 1/2, 3]]).getD 0 []) 2 u
          = some 3 ∨
        sampleTopkRow ((probsOf Real.exp 1 [[1, 2, 1/2, 3]]).getD 0 []) 2 u
          = some 1) ∧
      topkWeights ((probsOf Real.exp 1 [[1, 2, 1/2, 3]]).getD 0 []) 2
        = [Real.exp 3 / (([1, 2, 1/2, 3] : List ℝ).map Real.exp).sum,
           Real.exp 2 / (([1, 2, 1/2, 3] : List ℝ).map Real.exp).sum] ∧
      (Real.exp 3 / (([1, 2, 1/2, 3] : List ℝ).map Real.exp).sum)
          / (Real.exp 3 / (([1, 2, 1/2, 3] : List ℝ).map Real.exp).sum
             + Real.exp 2 / (([1, 2, 1/2, 3] : List ℝ).map Real.exp).sum)
        = Real.exp 3 / (Real.exp 3 + Real.exp 2)) := by
  constructor
  · intro row k u h0 h1 hk hkV
    obtain ⟨heq, hm⟩ := sampleTopkRow_eq_some row k u h0 h1 hk hkV
    exact ⟨_, hm, heq⟩
  · intro u
    have hrow7 : (probsOf Real.exp 1 [[1, 2, 1/2, 3]]).getD 0 []
        = softmax Real.exp ([1, 2, 1/2, 3] : List ℝ) := by
      simp [probsOf, div_one]
    have hS : 0 < (([1, 2, 1/2, 3] : List ℝ).map Real.exp).sum :=
      exp_sum_pos _ (by simp)
    have hR : argsortDesc ([1, 2, 1/2, 3] : List ℝ) = [3, 1, 0, 2] := by
      norm_num [argsortDesc, descRel, List.insertionSort, List.orderedInsert,
        List.range_succ]
    have hseq : argsortDesc (softmax Real.exp ([1, 2, 1/2, 3] : List ℝ))
        = [3, 1, 0, 2] := by
      rw [argsortDesc_softmax Real.exp_strictMono _ hS, hR]
    have hlen7 : (softmax Real.exp ([1, 2, 1/2, 3] : List ℝ)).length = 4 := by
      rw [softmax_length]
      rfl
    have hw : topkWeights (softmax Real.exp ([1, 2, 1/2, 3] : List ℝ)) 2
        = [Real.exp 3 / (([1, 2, 1/2, 3] : List ℝ).map Real.exp).sum,
           Real.exp 2 / (([1, 2, 1/2, 3] : List ℝ).map Real.exp).sum] := by
      unfold topkWeights
      rw [hseq]
      simp only [List.map_cons, List.map_nil, List.take_succ_cons,
        List.take_zero]
      rw [softmax_getD Real.exp (by norm_num : (3:ℕ) < ([1, 2, 1/2, 3] : List ℝ).length),
        softmax_getD Real.exp (by norm_num : (1:ℕ) < ([1, 2, 1/2, 3] : List ℝ).length)]
      norm_num
    refine ⟨?_, hrow7 ▸ hw, ?_⟩
    · rw [hrow7]
      obtain ⟨heq, hm⟩ := sampleTopkRow_eq_some
        (softmax Real.exp ([1, 2, 1/2, 3] : List ℝ)) 2 u
        (softmax_nonneg _) (softmax_sum _ _ (ne_of_gt hS)) (by norm_num)
        (by rw [hlen7]; norm_num)
      rw [hseq] at heq
      have hm2 : multIdx (topkWeights (softmax Real.exp ([1, 2, 1/2, 3] : List ℝ)) 2)
          (u * (topkWeights (softmax Real.exp ([1, 2, 1/2, 3] : List ℝ)) 2).sum) = 0
          ∨ multIdx (topkWeights (softmax Real.exp ([1, 2, 1/2, 3] : List ℝ)) 2)
            (u * (topkWeights (softmax Real.exp ([1, 2, 1/2, 3] : List ℝ)) 2).sum) = 1 := by
        omega
      rcases hm2 with h | h
      · left
        rw [h] at heq
        exact heq
      · right
        rw [h] at heq
        exact heq
    · have h32 : Real.exp 3 + Real.exp 2 ≠ 0 := by
        have := Real.exp_pos (3 : ℝ)
        have := Real.exp_pos (2 : ℝ)
        linarith
      field_simp

/-- Witness for C7's universally quantified part. -/
theorem sample_topk_spec_witness :
    ((∀ w ∈ ([1/2, 1/2] : List ℝ), 0 ≤ w) ∧ ([1/2, 1/2] : List ℝ).sum = 1 ∧
      1 ≤ 1 ∧ 1 ≤ ([1/2, 1/2] : List ℝ).length) ∧
    ∃ m, m < 1 ∧ sampleTopkRow ([1/2, 1/2] : List ℝ) 1 0
        = some (((argsortDesc ([1/2, 1/2] : List ℝ)).take 1).getD m 0) :=
  ⟨⟨by norm_num, by norm_num, le_refl 1, by norm_num⟩,
    sample_topk_spec.1 ([1/2, 1/2] : List ℝ) 1 0 (by norm_num) (by norm_num)
      (le_refl 1) (by norm_num)⟩

/-! ### C9: the top-p passthrough -/

/-- **C9.**  For the TopP variant with `p ≤ 0` or `p ≥ 1`, `sample` behaves
exactly as the All variant with the same temperature (it samples each row
sequentially from the full softmax distribution, no clamping); likewise for
TopKThenTopP, when `p ≤ 0` or `p` is at least the sum of the retained top-k
weights, the top-p filtering stage is skipped and the row is sampled over
all `k` retained tokens. -/
theorem topp_passthrough_behaves_as_all :
    (∀ (E : ℚ → ℚ) (seed c0 : ℕ) (p T : ℚ) (logits : List (List ℚ))
      (out : List (Option ℕ)), (p ≤ 0 ∨ 1 ≤ p) →
      (SampleRel E seed c0 (Sampling.topP p T) logits out ↔
        SampleRel E seed c0 (Sampling.all T) logits out)) ∧
    (∀ (row : List α) (k : ℕ) (p u : α),
      (p ≤ 0 ∨ (topkWeights row k).sum ≤ p) →
      sampleTopkToppRow row k p u = sampleTopkRow row k u) := by
  constructor
  · intro E seed c0 p T logits out hp
    simp only [SampleRel]
    rw [if_pos hp]
  · intro row k p u hp
    unfold sampleTopkToppRow sampleTopkRow
    by_cases hsl : k ≤ (argsortDesc row).length
    · have hsl2 : k ≤ ((argsortDesc row).map (fun i => row.getD i 0)).length := by
        rw [List.length_map]
        exact hsl
      rw [sliceTo_eq_some hsl, sliceTo_eq_some hsl2]
      have hfold : ((argsortDesc row).map (fun i => row.getD i 0)).take k
          = topkWeights row k := rfl
      simp only [hfold, if_pos hp]
    · push_neg at hsl
      rw [sliceTo_eq_none hsl]

/-- Witness for C9 at a concrete passthrough instance. -/
theorem topp_passthrough_behaves_as_all_witness :
    ((0 : ℚ) ≤ 0 ∨ (topkWeights ([1/2, 1/2] : List ℚ) 2).sum ≤ 0) ∧
    sampleTopkToppRow ([1/2, 1/2] : List ℚ) 2 0 (1/4)
      = sampleTopkRow ([1/2, 1/2] : List ℚ) 2 (1/4) :=
  ⟨Or.inl (le_refl 0),
    topp_passthrough_behaves_as_all.2 ([1/2, 1/2] : List ℚ) 2 0 (1/4)
      (Or.inl (le_refl 0))⟩

/-! ### C10: variant selection in `LogitsProcessor::new` -/

/-- **C10.**  `LogitsProcessor::new(seed, temperature, top_p)` selects the
sampling variant by thresholding the temperature: a `None` temperature, or
one strictly below `1e-7`, yields `ArgMax` with `top_p` ignored entirely —
so a caller passing a tiny positive temperature silently gets deterministic
argmax decoding; otherwise the variant is `All` when `top_p` is `None` and
`TopP{p, temperature}` when it is `Some p`. -/
theorem logits_processor_new_variant_selection :
    (∀ (seed : ℕ) (tp : Option α),
      (LogitsProcessor.new seed none tp).sampling = Sampling.argMax) ∧
    (∀ (seed : ℕ) (v : α) (tp tp' : Option α), v < 1 / 10 ^ 7 →
      (LogitsProcessor.new seed (some v) tp).sampling = Sampling.argMax ∧
      (LogitsProcessor.new seed (some v) tp).sampling
        = (LogitsProcessor.new seed (some v) tp').sampling) ∧
    (∀ (seed : ℕ) (v : α), ¬v < 1 / 10 ^ 7 →
      (LogitsProcessor.new seed (some v) none).sampling = Sampling.all v) ∧
    (∀ (seed : ℕ) (v : α) (p : α), ¬v < 1 / 10 ^ 7 →
      (LogitsProcessor.new seed (some v) (some p)).sampling
        = Sampling.topP p v) := by
  refine ⟨fun seed tp => rfl, ?_, ?_, ?_⟩
  · intro seed v tp tp' hv
    constructor
    · unfold LogitsProcessor.new
      simp only [Option.some_bind, if_pos hv]
      rfl
    · unfold LogitsProcessor.new
      simp only [Option.some_bind, if_pos hv]
  · intro seed v hv
    unfold LogitsProcessor.new
    simp only [Option.some_bind, if_neg hv]
    rfl
  · intro seed v p hv
    unfold LogitsProcessor.new
    simp only [Option.some_bind, if_neg hv]
    rfl

/-- Witness for C10: a tiny positive temperature (`1e-8 < 1e-7`) silently
selects argmax whatever `top_p` is. -/
theorem logits_processor_new_variant_selection_witness :
    ((1 / 10 ^ 8 : ℚ) < 1 / 10 ^ 7) ∧
    (LogitsProcessor.new 42 (some (1 / 10 ^ 8 : ℚ)) (some (9/10))).sampling
      = Sampling.argMax :=
  ⟨by norm_num,
    (logits_processor_new_variant_selection.2.1 42 (1 / 10 ^ 8 : ℚ)
      (some (9/10)) none (by norm_num)).1⟩

/-! ### C1: determinism of `sample` -/

/-- With at most one batch row, the parallel sampling relation is
deterministic (there is only one draw order). -/
theorem parallelRows_subsingleton (f : List ℚ → ℚ → Option ℕ)
    (prs : List (List ℚ)) (seed c0 : ℕ) (hlen : prs.length ≤ 1)
    {out1 out2 : List (Option ℕ)} (h1 : parallelRows f prs seed c0 out1)
    (h2 : parallelRows f prs seed c0 out2) : out1 = out2 := by
  obtain ⟨o1, hp1, he1⟩ := h1
  obtain ⟨o2, hp2, he2⟩ := h2
  rcases Nat.le_one_iff_eq_zero_or_eq_one.mp hlen with h | h
  · rw [h] at hp1 hp2
    have ho1 : o1 = [] := List.Perm.eq_nil hp1
    have ho2 : o2 = [] := List.Perm.eq_nil hp2
    rw [ho1.trans ho2.symm] at he1
    exact he1.trans he2.symm
  · rw [h] at hp1 hp2
    have hr1 : List.range 1 = [0] := rfl
    rw [hr1] at hp1 hp2
    have ho1 : o1 = [0] := List.perm_singleton.mp hp1
    have ho2 : o2 = [0] := List.perm_singleton.mp hp2
    rw [ho1.trans ho2.symm] at he1
    exact he1.trans he2.symm

/-- **C1 (amended).**  The sequential dispatch paths of `sample` (`ArgMax`,
`All`, and `TopP` with `p` outside `(0, 1)`) draw from the shared rng in
ascending batch-row order and their output is a deterministic function of
`(seed, draw counter, logits)`; for the rayon-parallel paths (`TopP` with
`0 < p < 1`, `TopK`, `TopKThenTopP`) the draw order is an unspecified
permutation chosen by the scheduler, and determinism survives only for
batches of at most one row (single-row batches admit a single order). -/
theorem sample_deterministic_seq_paths :
    (∀ (E : ℚ → ℚ) (seed c0 : ℕ) (s : Sampling ℚ) (logits : List (List ℚ))
      (out1 out2 : List (Option ℕ)), SeqPath s →
      SampleRel E seed c0 s logits out1 →
      SampleRel E seed c0 s logits out2 → out1 = out2) ∧
    (∀ (E : ℚ → ℚ) (seed c0 : ℕ) (s : Sampling ℚ) (logits : List (List ℚ))
      (out1 out2 : List (Option ℕ)), logits.length ≤ 1 →
      SampleRel E seed c0 s logits out1 →
      SampleRel E seed c0 s logits out2 → out1 = out2) := by
  have hplen : ∀ (E : ℚ → ℚ) (T : ℚ) (logits : List (List ℚ)),
      (probsOf E T logits).length = logits.length := by
    intro E T logits
    unfold probsOf
    rw [List.length_map]
  constructor
  · intro E seed c0 s logits out1 out2 hseq h1 h2
    cases s with
    | argMax =>
      simp only [SampleRel] at h1 h2
      exact h1.trans h2.symm
    | all T =>
      simp only [SampleRel] at h1 h2
      exact h1.trans h2.symm
    | topP p T =>
      have hp : p ≤ 0 ∨ 1 ≤ p := hseq
      simp only [SampleRel] at h1 h2
      rw [if_pos hp] at h1 h2
      exact h1.trans h2.symm
    | topK k T => exact absurd hseq (by simp [SeqPath])
    | topKThenTopP k p T => exact absurd hseq (by simp [SeqPath])
  · intro E seed c0 s logits out1 out2 hlen h1 h2
    cases s with
    | argMax =>
      simp only [SampleRel] at h1 h2
      exact h1.trans h2.symm
    | all T =>
      simp only [SampleRel] at h1 h2
      exact h1.trans h2.symm
    | topP p T =>
      simp only [SampleRel] at h1 h2
      by_cases hp : p ≤ 0 ∨ 1 ≤ p
      · rw [if_pos hp] at h1 h2
        exact h1.trans h2.symm
      · rw [if_neg hp] at h1 h2
        exact parallelRows_subsingleton _ _ _ _
          (by rw [hplen]; exact hlen) h1 h2
    | topK k T =>
      simp only [SampleRel] at h1 h2
      exact parallelRows_subsingleton _ _ _ _
        (by rw [hplen]; exact hlen) h1 h2
    | topKThenTopP k p T =>
      simp only [SampleRel] at h1 h2
      exact parallelRows_subsingleton _ _ _ _
        (by rw [hplen]; exact hlen) h1 h2

/-- Witness for the amended C1 (the `ArgMax` path at a concrete batch). -/
theorem sample_deterministic_seq_paths_witness :
    SeqPath (Sampling.argMax : Sampling ℚ) ∧
    ([some 1] : List (Option ℕ)) = [some 1] := by
  have hrel : SampleRel id 0 0 Sampling.argMax [[1, 2]] [some 1] := by
    simp only [SampleRel]
    norm_num [argmaxIdx, argmaxGo]
  exact ⟨trivial, sample_deterministic_seq_paths.1 id 0 0 Sampling.argMax
    [[1, 2]] [some 1] [some 1] trivial hrel hrel⟩

/-- **C1 (counterexample).**  For the TopP variant with `p = 9/10` on a
two-row batch of identical uniform distributions, two schedules of the
rayon-parallel loop (row 0 first vs. row 1 first) hand the two rng draws to
different rows and produce different token vectors: `sample`'s output is NOT
a deterministic function of `(seed, logits)`, and rows are not guaranteed to
draw in ascending batch-row order. -/
theorem sample_parallel_order_nondet :
    SampleRel id 0 0 (Sampling.topP (9/10) 1) [[5, 5], [5, 5]]
      [some 0, some 1] ∧
    SampleRel id 0 0 (Sampling.topP (9/10) 1) [[5, 5], [5, 5]]
      [some 1, some 0] ∧
    ([some 0, some 1] : List (Option ℕ)) ≠ [some 1, some 0] := by
  have hprobs : probsOf id 1 ([[5, 5], [5, 5]] : List (List ℚ))
      = [[1/2, 1/2], [1/2, 1/2]] := by
    norm_num [probsOf, softmax]
  have hrow03 : sampleToppRow ([1/2, 1/2] : List ℚ) (9/10) (3/10) = some 0 := by
    norm_num [sampleToppRow, sampleMultinomial, clampTopP, clampStep,
      argsortDesc, descRel, List.insertionSort, List.orderedInsert,
      List.range_succ, multIdx]
  have hrow06 : sampleToppRow ([1/2, 1/2] : List ℚ) (9/10) (3/5) = some 1 := by
    norm_num [sampleToppRow, sampleMultinomial, clampTopP, clampStep,
      argsortDesc, descRel, List.insertionSort, List.orderedInsert,
      List.range_succ, multIdx]
  have hu0 : uniformQ 0 0 = 3/10 := by norm_num [uniformQ]
  have hu1 : uniformQ 0 1 = 3/5 := by norm_num [uniformQ]
  refine ⟨?_, ?_, by simp⟩
  · simp only [SampleRel]
    rw [if_neg (by norm_num)]
    refine ⟨[0, 1], ?_, ?_⟩
    · rw [hprobs]
      exact List.Perm.refl _
    · rw [hprobs]
      show [some 0, some 1]
        = [sampleToppRow ([1/2, 1/2] : List ℚ) (9/10)
            (uniformQ 0 (0 + List.indexOf 0 [0, 1])),
           sampleToppRow ([1/2, 1/2] : List ℚ) (9/10)
            (uniformQ 0 (0 + List.indexOf 1 [0, 1]))]
      have hi0 : List.indexOf 0 [0, 1] = 0 := rfl
      have hi1 : List.indexOf 1 [0, 1] = 1 := by decide
      rw [hi0, hi1]
      norm_num [hu0, hu1, hrow03, hrow06]
  · simp only [SampleRel]
    rw [if_neg (by norm_num)]
    refine ⟨[1, 0], ?_, ?_⟩
    · rw [hprobs]
      exact List.Perm.swap 0 1 []
    · rw [hprobs]
      show [some 1, some 0]
        = [sampleToppRow ([1/2, 1/2] : List ℚ) (9/10)
            (uniformQ 0 (0 + List.indexOf 0 [1, 0])),
           sampleToppRow ([1/2, 1/2] : List ℚ) (9/10)
            (uniformQ 0 (0 + List.indexOf 1 [1, 0]))]
      have hi0 : List.indexOf 0 [1, 0] = 1 := by decide
      have hi1 : List.indexOf 1 [1, 0] = 0 := rfl
      rw [hi0, hi1]
      norm_num [hu0, hu1, hrow03, hrow06]

end CandleVllm
